import Mathlib

/-!
Verification of the interval-clustering and consensus-coordinate engine of
`scripts/utils/02_consensus_coordinates.py` (phage-host-workflow).

The engine processes each contig independently (`groupby("contig")` in
`cluster_by_contig` and `consensus_edgewise`, and a per-contig loop in
`create_mapping`), so the embedding models the per-contig computation: a
list of calls of one contig, the contig name passed as a parameter.
Python's arbitrary-precision integers are embedded as `ℤ`; the real-valued
reciprocal-overlap ratio is embedded as an exact rational (`ℚ`);
`int(...)` applied to a `numpy` median is truncation toward zero.
Operations that would raise on empty input (`np.median` of an empty
sequence, `min`/`max` of an empty sequence) are embedded as
`Option`-valued functions, so totality of the pipeline is a theorem, not
a modelling artifact.
-/

namespace Consensus

/-- One row of the uniform call table fed to the engine, restricted to a
fixed contig: the reporting tool, the interval, and the raw identifier
(`id_raw` in the source).  `stop` embeds the source's `end` column, which
is a reserved word in Lean. -/
structure Call where
  tool : String
  start : ℤ
  stop : ℤ
  id_raw : String
deriving DecidableEq

/-- Sort key of `dfc.sort_values(["start","end"])`: by start, then by end. -/
def callLE (a b : Call) : Prop :=
  a.start < b.start ∨ (a.start = b.start ∧ a.stop ≤ b.stop)

instance : DecidableRel callLE := fun a b => by
  unfold callLE; infer_instance

instance : IsTotal Call callLE := by
  constructor
  intro a b
  unfold callLE
  rcases lt_trichotomy a.start b.start with h | h | h
  · exact Or.inl (Or.inl h)
  · rcases le_total a.stop b.stop with h2 | h2
    · exact Or.inl (Or.inr ⟨h, h2⟩)
    · exact Or.inr (Or.inr ⟨h.symm, h2⟩)
  · exact Or.inr (Or.inl h)

instance : IsTrans Call callLE := by
  constructor
  intro a b c hab hbc
  unfold callLE at *
  rcases hab with h | ⟨h, h2⟩ <;> rcases hbc with g | ⟨g, g2⟩
  · exact Or.inl (h.trans g)
  · exact Or.inl (g ▸ h)
  · exact Or.inl (h ▸ g)
  · exact Or.inr ⟨h.trans g, h2.trans g2⟩

/-- The sort of one contig's calls performed by `cluster_by_contig`. -/
def sortCalls (calls : List Call) : List Call :=
  List.insertionSort callLE calls

/-- The `min_recip` quantity of `cluster_by_contig`: 0 when either interval
has zero length, otherwise the smaller of the two overlap fractions, as an
exact rational. -/
def minRecip (inter lenA lenB : ℤ) : ℚ :=
  if lenA = 0 ∨ lenB = 0 then 0
  else min (Rat.divInt inter lenA) (Rat.divInt inter lenB)

/-- One merge test of the sweep in `cluster_by_contig`, for the current
envelope `[cs, ce]` and the next call `(s, e)`: merge when
`min_recip >= overlap_thresh` or `gap <= max_dist`. -/
def mergeStep (th : ℚ) (md : ℤ) (cs ce s e : ℤ) : Bool :=
  let inter : ℤ := max 0 (min e ce - max s cs)
  let gap : ℤ := if 0 < inter then 0 else max (s - ce) (max (cs - e) 0)
  decide (th ≤ minRecip inter (e - s) (ce - cs)) || decide (gap ≤ md)

/-- The left-to-right sweep of `cluster_by_contig` over the sorted calls
that follow the current cluster: `cid` is the running `cluster_id`,
`[cs, ce]` the running envelope, `mem` the current members (most recent
first).  Flushed clusters are emitted as `(cluster_idx, members)` pairs
with members in encounter order. -/
def sweepAux (th : ℚ) (md : ℤ) :
    List Call → ℕ → ℤ → ℤ → List Call → List (ℕ × List Call)
  | [], cid, _, _, mem => [(cid, mem.reverse)]
  | c :: rest, cid, cs, ce, mem =>
    if mergeStep th md cs ce c.start c.stop then
      sweepAux th md rest cid (min cs c.start) (max ce c.stop) (c :: mem)
    else
      (cid, mem.reverse) :: sweepAux th md rest (cid + 1) c.start c.stop [c]

/-- The sweep started on an already sorted list of calls. -/
def clusterSorted (th : ℚ) (md : ℤ) : List Call → List (ℕ × List Call)
  | [] => []
  | c :: rest => sweepAux th md rest 1 c.start c.stop [c]

/-- `cluster_by_contig` restricted to one contig: sort by `(start, end)`,
then sweep, producing the clusters with their 1-based `cluster_idx`. -/
def cluster_by_contig (th : ℚ) (md : ℤ) (calls : List Call) :
    List (ℕ × List Call) :=
  clusterSorted th md (sortCalls calls)

/-- The default `overlap_thresh=0.5` of the source. -/
def defaultThresh : ℚ := mkRat 1 2

/-- The default `max_dist=1000` of the source. -/
def defaultMaxDist : ℤ := 1000

/-- The default `tol=200` of `consensus_edgewise`. -/
def defaultTol : ℤ := 200

/-- Junk default for an out-of-range tool lookup; component indices are
always in range, so it is never reached. -/
def noTool : String := ""

/-- Contig name used by the concrete instances below. -/
def demoContig : String := "ctg"

/-- Truncation toward zero of `x / 2`, the effect of Python's `int()` on
the exact half `x / 2`; `/` below is Lean's Euclidean division, which on
nonnegative arguments is ordinary division. -/
def truncHalf (x : ℤ) : ℤ :=
  if 0 ≤ x then x / 2 else -((-x) / 2)

/-- `int(np.median(l))` for nonempty `l`: the middle element of the sorted
list when the length is odd, and the truncation toward zero of the average
of the two middle elements when it is even. -/
def medianInt (l : List ℤ) : ℤ :=
  let s := List.insertionSort (· ≤ ·) l
  if s.length % 2 = 1 then s.getD (s.length / 2) 0
  else truncHalf (s.getD (s.length / 2 - 1) 0 + s.getD (s.length / 2) 0)

/-- `int(np.median(l))`, undefined on the empty list (where `np.median`
yields `nan` and `int(nan)` raises). -/
def medianOpt (l : List ℤ) : Option ℤ :=
  if l.isEmpty then none else some (medianInt l)

/-- Minimum of a list of integers, with junk value 0 on the empty list. -/
def minD : List ℤ → ℤ
  | [] => 0
  | x :: r => r.foldl min x

/-- Maximum of a list of integers, with junk value 0 on the empty list. -/
def maxD : List ℤ → ℤ
  | [] => 0
  | x :: r => r.foldl max x

/-- Code-point sequence of a string; Python compares strings by their
code points, lexicographically. -/
def strKey (s : String) : List ℕ :=
  s.data.map Char.toNat

/-- Python's string order, via the lexicographic order on code points. -/
def strLe (a b : String) : Prop :=
  strKey a ≤ strKey b

instance : DecidableRel strLe := fun a b => by
  unfold strLe; infer_instance

instance : IsTotal String strLe :=
  ⟨fun a b => le_total (strKey a) (strKey b)⟩

instance : IsTrans String strLe :=
  ⟨fun _ _ _ h1 h2 => le_trans h1 h2⟩

/-- Python's `sorted` on a list of strings. -/
def sortStrings (l : List String) : List String :=
  List.insertionSort strLe l

/-- Neighbours of index `i` in the tolerance graph of `best_group`:
indices `j` with `abs(values[i] - values[j]) <= tol` (and `j ≠ i`). -/
def nbrs (vs : List ℤ) (tol : ℤ) (i : ℕ) : List ℕ :=
  (List.range vs.length).filter
    (fun j => decide (j ≠ i) && decide (|vs.getD i 0 - vs.getD j 0| ≤ tol))

/-- One round of closure under the tolerance adjacency. -/
def expandOnce (vs : List ℤ) (tol : ℤ) (s : List ℕ) : List ℕ :=
  (s ++ s.flatMap (nbrs vs tol)).dedup

/-- Connected component of index `i` in the tolerance graph, sorted
ascending (`sorted(list(comp))` of the source).  The source computes it
by depth-first search; `vs.length` rounds of neighbour expansion reach
the same fixpoint, as each round either saturates or grows the set and
there are only `vs.length` indices. -/
def compOf (vs : List ℤ) (tol : ℤ) (i : ℕ) : List ℕ :=
  List.insertionSort (· ≤ ·) ((expandOnce vs tol)^[vs.length] [i])

/-- The connected components of the tolerance graph in discovery order:
the outer loop of `best_group` over `i in range(n)`, skipping seen
indices. -/
def comps (vs : List ℤ) (tol : ℤ) : List (List ℕ) :=
  (List.range vs.length).foldl
    (fun acc i =>
      if acc.any (fun c => c.contains i) then acc else acc ++ [compOf vs tol i])
    []

/-- Values of a component. -/
def groupVals (vs : List ℤ) (c : List ℕ) : List ℤ :=
  c.map (fun k => vs.getD k 0)

/-- The component's value range `max - min` (`width` in the source). -/
def groupWidth (vs : List ℤ) (c : List ℕ) : ℤ :=
  maxD (groupVals vs c) - minD (groupVals vs c)

/-- Python's strict tuple order on the selection key `(-len(idx), width)`:
`a` has strictly smaller key than `b`. -/
def keyLt (vs : List ℤ) (a b : List ℕ) : Prop :=
  b.length < a.length ∨
    (a.length = b.length ∧ groupWidth vs a < groupWidth vs b)

instance (vs : List ℤ) : DecidableRel (keyLt vs) := fun a b => by
  unfold keyLt; infer_instance

/-- The selection loop of `best_group`: keep the first component whose key
is strictly smaller than the best so far. -/
def pickBest (vs : List ℤ) (g : List ℕ) (gs : List (List ℕ)) : List ℕ :=
  gs.foldl (fun best c => if keyLt vs c best then c else best) g

/-- `best_group(values, tools, tol)`: components of size at least 2, best
by `(-size, range)`, returning the truncated integer median of the chosen
component's values and the tools that contributed them; `none` embeds the
source's `(None, [])`. -/
def best_group (vs : List ℤ) (tools : List String) (tol : ℤ) :
    Option (ℤ × List String) :=
  match (comps vs tol).filter (fun c => decide (2 ≤ c.length)) with
  | [] => none
  | g :: gs =>
    let best := pickBest vs g gs
    some (medianInt (groupVals vs best), best.map (fun k => tools.getD k noTool))

/-- One row of the consensus table (`rows.append({...})` in
`consensus_edgewise`); the comma-joined sorted tool strings of the source
are kept as sorted lists. -/
structure ConsensusRecord where
  consensus_id : String
  contig : String
  n_tools : ℕ
  tools : List String
  consensus_start : ℤ
  consensus_end : ℤ
  method : String
  used_tools_start : List String
  used_tools_end : List String
deriving DecidableEq

/-- The identifier format `f"{contig}_prophage_{s_cons}_{e_cons}"`. -/
def mkId (contig : String) (s e : ℤ) : String :=
  contig ++ "_prophage_" ++ toString s ++ "_" ++ toString e

/-- The distinct tools of a cluster in ascending order: the `tool` keys of
the per-tool `groupby` (pandas sorts group keys), i.e. the `tools` list of
`consensus_edgewise`. -/
def clusterTools (members : List Call) : List String :=
  sortStrings (members.map Call.tool).dedup

/-- Start values of one tool's member calls in a cluster. -/
def toolStarts (members : List Call) (t : String) : List ℤ :=
  (members.filter (fun c => decide (c.tool = t))).map Call.start

/-- End values of one tool's member calls in a cluster. -/
def toolStops (members : List Call) (t : String) : List ℤ :=
  (members.filter (fun c => decide (c.tool = t))).map Call.stop

/-- The representative start of a tool in a cluster:
`start=("start", lambda x: int(np.median(x)))`. -/
def repStart (members : List Call) (t : String) : Option ℤ :=
  medianOpt (toolStarts members t)

/-- The representative end of a tool in a cluster:
`end=("end", lambda x: int(np.median(x)))`. -/
def repStop (members : List Call) (t : String) : Option ℤ :=
  medianOpt (toolStops members t)

/-- Sequencing of a list of fallible values. -/
def optList {α : Type} : List (Option α) → Option (List α)
  | [] => some []
  | o :: rest => do
    let a ← o
    let r ← optList rest
    pure (a :: r)

/-- Total image of the per-tool representative starts (used to state
facts about the resolved cluster; equals the `Option` route on any
nonempty cluster). -/
def repStartsD (members : List Call) : List ℤ :=
  (clusterTools members).map (fun t => medianInt (toolStarts members t))

/-- Total image of the per-tool representative ends. -/
def repStopsD (members : List Call) : List ℤ :=
  (clusterTools members).map (fun t => medianInt (toolStops members t))

/-- The `n_tools >= 2` branch of `consensus_edgewise`: resolve start and
end independently by `best_group`, with `min`/`max` fallbacks and the
method fragments `start_min`/`end_max`/`start_consensus_k`/
`end_consensus_k`. -/
def resolveMulti (tol : ℤ) (contig : String) (toolNames : List String)
    (starts stops : List ℤ) : ConsensusRecord :=
  let sRes : ℤ × List String × String :=
    match best_group starts toolNames tol with
    | none => (minD starts, toolNames, "start_min")
    | some (m, used) => (m, used, "start_consensus_" ++ toString used.length)
  let eRes : ℤ × List String × String :=
    match best_group stops toolNames tol with
    | none => (maxD stops, toolNames, "end_max")
    | some (m, used) => (m, used, "end_consensus_" ++ toString used.length)
  { consensus_id := mkId contig sRes.1 eRes.1
    contig := contig
    n_tools := toolNames.length
    tools := toolNames
    consensus_start := sRes.1
    consensus_end := eRes.1
    method := sRes.2.2 ++ "+" ++ eRes.2.2
    used_tools_start := sortStrings sRes.2.1
    used_tools_end := sortStrings eRes.2.1 }

/-- The per-cluster body of `consensus_edgewise`: per-tool median
representatives, then the single-tool passthrough or the edgewise
majority/fallback resolution. -/
def resolveCluster (tol : ℤ) (contig : String) (members : List Call) :
    Option ConsensusRecord :=
  match clusterTools members with
  | [] => none
  | [t] => do
    let s ← repStart members t
    let e ← repStop members t
    pure
      { consensus_id := mkId contig s e
        contig := contig
        n_tools := 1
        tools := [t]
        consensus_start := s
        consensus_end := e
        method := "single_tool"
        used_tools_start := [t]
        used_tools_end := [t] }
  | t1 :: t2 :: ts => do
    let starts ← optList ((t1 :: t2 :: ts).map (repStart members))
    let stops ← optList ((t1 :: t2 :: ts).map (repStop members))
    pure (resolveMulti tol contig (t1 :: t2 :: ts) starts stops)

/-- Order of the final `sort_values(["contig","consensus_start"])`,
restricted to one contig. -/
def recordLE (a b : ConsensusRecord) : Prop :=
  a.consensus_start ≤ b.consensus_start

instance : DecidableRel recordLE := fun a b => by
  unfold recordLE; infer_instance

instance : IsTotal ConsensusRecord recordLE :=
  ⟨fun a b => le_total a.consensus_start b.consensus_start⟩

instance : IsTrans ConsensusRecord recordLE :=
  ⟨fun _ _ _ h1 h2 => le_trans h1 h2⟩

/-- `consensus_edgewise` restricted to one contig: one record per cluster,
in cluster order, finally sorted by `consensus_start`. -/
def consensus_edgewise (tol : ℤ) (contig : String)
    (clusters : List (ℕ × List Call)) : Option (List ConsensusRecord) := do
  let recs ← optList (clusters.map (fun p => resolveCluster tol contig p.2))
  pure (List.insertionSort recordLE recs)

/-- `create_mapping` restricted to one contig: for every cluster index, if
the consensus table has at least that many rows for the contig, map every
member's `id_raw` to the `consensus_id` of the row at position
`cluster_idx - 1`.  Cluster indices are 1-based, so the `p.1 = 0` case of
the natural subtraction below is never reached on pipeline output. -/
def create_mapping (consensus : List ConsensusRecord)
    (members : List (ℕ × List Call)) : List (String × String) :=
  members.flatMap (fun p =>
    match consensus[p.1 - 1]? with
    | some r => p.2.map (fun c => (c.id_raw, r.consensus_id))
    | none => [])

/-- Lookup in the mapping built by repeated dict assignment: the binding
added last wins. -/
def dictLookup : List (String × String) → String → Option String
  | [], _ => none
  | kv :: rest, k =>
    match dictLookup rest k with
    | some v => some v
    | none => if kv.1 = k then some kv.2 else none

/-- The composed per-contig core pipeline with the source's default
parameters: clustering, consensus, identifier mapping. -/
def pipelineContig (contig : String) (calls : List Call) :
    Option (List (ℕ × List Call) × List ConsensusRecord × List (String × String)) := do
  let clusters := cluster_by_contig defaultThresh defaultMaxDist calls
  let consensus ← consensus_edgewise defaultTol contig clusters
  pure (clusters, consensus, create_mapping consensus clusters)

/-- Comparison of calls by start position only. -/
def startLe (a b : Call) : Prop := a.start ≤ b.start

/-- Separation of two clusters: every member of the first ends more than
`md` before every member of the second starts. -/
def sepRel (md : ℤ) (p q : ℕ × List Call) : Prop :=
  ∀ x ∈ p.2, ∀ y ∈ q.2, x.stop + md < y.start

/-- Growth invariant of a cluster over its members listed most recent
first: every member except the earliest starts within `md` of the
largest end among the earlier members. -/
def chainRev (md : ℤ) : List Call → Prop
  | [] => True
  | c :: rest =>
    (rest = [] ∨ c.start ≤ maxD (rest.map Call.stop) + md) ∧ chainRev md rest

/-- The record produced by a single-tool cluster. -/
def singleRecord (contig : String) (t : String) (members : List Call) :
    ConsensusRecord :=
  { consensus_id := mkId contig (medianInt (toolStarts members t))
      (medianInt (toolStops members t))
    contig := contig
    n_tools := 1
    tools := [t]
    consensus_start := medianInt (toolStarts members t)
    consensus_end := medianInt (toolStops members t)
    method := "single_tool"
    used_tools_start := [t]
    used_tools_end := [t] }

/-- The reciprocal overlap of two calls as the sweep computes it for a
pair of intervals: the smaller of the two overlap fractions, 0 when
either interval has zero length. -/
def recipOverlap (a b : Call) : ℚ :=
  minRecip (max 0 (min a.stop b.stop - max a.start b.start))
    (a.stop - a.start) (b.stop - b.start)

/-- Modelled from the spec: the even-count median rule the spec fixes in
its design notes, the floor of the average of the two middle values
(`Int.fdiv` is floor division). -/
def floorAvgSpec (a b : ℤ) : ℤ := Int.fdiv (a + b) 2

/-! ### Helper lemmas on `minD`, `maxD`, `optList` and `dictLookup` -/

theorem foldl_min_le_init (l : List ℤ) (a : ℤ) : l.foldl min a ≤ a := by
  induction l generalizing a with
  | nil => simp
  | cons x r ih =>
    simpa using le_trans (ih (min a x)) (min_le_left a x)

theorem foldl_min_le_mem {l : List ℤ} {x : ℤ} (hx : x ∈ l) (a : ℤ) :
    l.foldl min a ≤ x := by
  induction l generalizing a with
  | nil => cases hx
  | cons y r ih =>
    rcases List.mem_cons.mp hx with h | h
    · subst h
      exact le_trans (foldl_min_le_init r (min a x)) (min_le_right a x)
    · exact ih h (min a y)

theorem foldl_min_mem (l : List ℤ) (a : ℤ) :
    l.foldl min a = a ∨ l.foldl min a ∈ l := by
  induction l generalizing a with
  | nil => simp
  | cons x r ih =>
    have hfold : (x :: r).foldl min a = r.foldl min (min a x) := rfl
    rcases ih (min a x) with h | h
    · rcases min_cases a x with ⟨hm, _⟩ | ⟨hm, _⟩
      · exact Or.inl (by rw [hfold, h, hm])
      · refine Or.inr ?_
        rw [hfold, h, hm]
        exact List.mem_cons_self x r
    · exact Or.inr (List.mem_cons_of_mem x (hfold ▸ h))

theorem minD_le {l : List ℤ} {x : ℤ} (hx : x ∈ l) : minD l ≤ x := by
  cases l with
  | nil => cases hx
  | cons y r =>
    rcases List.mem_cons.mp hx with h | h
    · exact h ▸ foldl_min_le_init r y
    · exact foldl_min_le_mem h y

theorem minD_mem {l : List ℤ} (hl : l ≠ []) : minD l ∈ l := by
  cases l with
  | nil => exact absurd rfl hl
  | cons y r =>
    rcases foldl_min_mem r y with h | h
    · exact List.mem_cons.mpr (Or.inl h)
    · exact List.mem_cons_of_mem y h

theorem foldl_max_init_le (l : List ℤ) (a : ℤ) : a ≤ l.foldl max a := by
  induction l generalizing a with
  | nil => simp
  | cons x r ih =>
    simpa using le_trans (le_max_left a x) (ih (max a x))

theorem foldl_max_mem_le {l : List ℤ} {x : ℤ} (hx : x ∈ l) (a : ℤ) :
    x ≤ l.foldl max a := by
  induction l generalizing a with
  | nil => cases hx
  | cons y r ih =>
    rcases List.mem_cons.mp hx with h | h
    · subst h
      exact le_trans (le_max_right a x) (foldl_max_init_le r (max a x))
    · exact ih h (max a y)

theorem foldl_max_mem (l : List ℤ) (a : ℤ) :
    l.foldl max a = a ∨ l.foldl max a ∈ l := by
  induction l generalizing a with
  | nil => simp
  | cons x r ih =>
    have hfold : (x :: r).foldl max a = r.foldl max (max a x) := rfl
    rcases ih (max a x) with h | h
    · rcases max_cases a x with ⟨hm, _⟩ | ⟨hm, _⟩
      · exact Or.inl (by rw [hfold, h, hm])
      · refine Or.inr ?_
        rw [hfold, h, hm]
        exact List.mem_cons_self x r
    · exact Or.inr (List.mem_cons_of_mem x (hfold ▸ h))

theorem le_maxD {l : List ℤ} {x : ℤ} (hx : x ∈ l) : x ≤ maxD l := by
  cases l with
  | nil => cases hx
  | cons y r =>
    rcases List.mem_cons.mp hx with h | h
    · exact h ▸ foldl_max_init_le r y
    · exact foldl_max_mem_le h y

theorem maxD_mem {l : List ℤ} (hl : l ≠ []) : maxD l ∈ l := by
  cases l with
  | nil => exact absurd rfl hl
  | cons y r =>
    rcases foldl_max_mem r y with h | h
    · exact List.mem_cons.mpr (Or.inl h)
    · exact List.mem_cons_of_mem y h

theorem foldl_max_init_comm (l : List ℤ) (a b : ℤ) :
    l.foldl max (max a b) = max a (l.foldl max b) := by
  induction l generalizing b with
  | nil => simp
  | cons x r ih =>
    simp only [List.foldl_cons]
    rw [max_assoc, ih]

theorem maxD_cons {l : List ℤ} (hl : l ≠ []) (a : ℤ) :
    maxD (a :: l) = max a (maxD l) := by
  cases l with
  | nil => exact absurd rfl hl
  | cons y r =>
    show r.foldl max (max a y) = max a (r.foldl max y)
    exact foldl_max_init_comm r a y

theorem optList_map_some {α β : Type} {l : List α} {f : α → Option β} {g : α → β}
    (h : ∀ x ∈ l, f x = some (g x)) :
    optList (l.map f) = some (l.map g) := by
  induction l with
  | nil => rfl
  | cons x r ih =>
    have hx := h x (List.mem_cons_self x r)
    have hr := ih (fun y hy => h y (List.mem_cons_of_mem x hy))
    simp [optList, hx, hr]

theorem optList_eq_some {α : Type} {l : List (Option α)} {v : List α}
    (h : optList l = some v) :
    l.length = v.length ∧ ∀ i, (hi : i < l.length) → (hv : i < v.length) →
      l[i] = some v[i] := by
  induction l generalizing v with
  | nil =>
    cases v with
    | nil => exact ⟨rfl, fun i hi _ => by cases hi⟩
    | cons y ys => simp [optList] at h
  | cons o rest ih =>
    cases o with
    | none => simp [optList] at h
    | some a =>
      cases hrest : optList rest with
      | none => simp [optList, hrest] at h
      | some r =>
        have hv : v = a :: r := by
          simp [optList, hrest] at h
          exact h.symm
        subst hv
        obtain ⟨hlen, hpt⟩ := ih hrest
        refine ⟨by simpa using hlen, ?_⟩
        intro i hi hv
        cases i with
        | zero => rfl
        | succ j =>
          exact hpt j (by simpa using hi) (by simpa using hv)

theorem dictLookup_eq_none {L : List (String × String)} {k : String}
    (h : ∀ kv ∈ L, kv.1 ≠ k) : dictLookup L k = none := by
  induction L with
  | nil => rfl
  | cons kv rest ih =>
    have hr := ih (fun x hx => h x (List.mem_cons_of_mem kv hx))
    have hk : kv.1 ≠ k := h kv (List.mem_cons_self kv rest)
    simp [dictLookup, hr, hk]

theorem dictLookup_eq_some {L : List (String × String)} {k v : String}
    (hex : ∃ kv ∈ L, kv.1 = k) (huniq : ∀ kv ∈ L, kv.1 = k → kv.2 = v) :
    dictLookup L k = some v := by
  induction L with
  | nil => obtain ⟨kv, hm, _⟩ := hex; cases hm
  | cons kv rest ih =>
    by_cases hrest : ∃ x ∈ rest, x.1 = k
    · have := ih hrest (fun x hx hk => huniq x (List.mem_cons_of_mem kv hx) hk)
      simp [dictLookup, this]
    · have hnone : dictLookup rest k = none := by
        refine dictLookup_eq_none ?_
        intro x hx
        by_contra hc
        exact hrest ⟨x, hx, hc⟩
      obtain ⟨x, hm, hk⟩ := hex
      rcases List.mem_cons.mp hm with h | h
      · subst h
        have hv := huniq x (List.mem_cons_self x rest) hk
        simp [dictLookup, hnone, hk, hv]
      · exact absurd ⟨x, h, hk⟩ hrest

/-! ### Analysis of the merge test -/

theorem minRecip_zero (lenA lenB : ℤ) : minRecip 0 lenA lenB = 0 := by
  unfold minRecip
  split
  · rfl
  · simp [Rat.zero_divInt]

/-- If the intersection with the envelope is positive, the gap is zero and
any nonnegative `max_dist` lets the call merge, whatever the threshold. -/
theorem mergeStep_of_inter_pos (th : ℚ) {md : ℤ} (hmd : 0 ≤ md)
    {cs ce s e : ℤ} (hpos : 0 < min e ce - max s cs) :
    mergeStep th md cs ce s e = true := by
  unfold mergeStep
  have hinter : (0:ℤ) < max 0 (min e ce - max s cs) := lt_max_of_lt_right hpos
  simp only [hinter, if_pos]
  have : decide ((0:ℤ) ≤ md) = true := decide_eq_true hmd
  simp [hmd]

/-- A failed merge test forces the next call to start more than `max_dist`
past the envelope end (sorted sweep: `cs ≤ s`, valid call: `s ≤ e`). -/
theorem mergeStep_false_gap {th : ℚ} {md : ℤ} (hmd : 0 ≤ md)
    {cs ce s e : ℤ} (hcss : cs ≤ s) (hse : s ≤ e)
    (h : mergeStep th md cs ce s e = false) : ce + md < s := by
  unfold mergeStep at h
  rw [Bool.or_eq_false_iff] at h
  have hgap := h.2
  rw [decide_eq_false_iff_not, not_le] at hgap
  by_cases hpos : (0:ℤ) < max 0 (min e ce - max s cs)
  · rw [if_pos hpos] at hgap
    exact absurd hmd (not_le.mpr hgap)
  · rw [if_neg hpos] at hgap
    rcases lt_max_iff.mp hgap with h1 | h2
    · omega
    · rcases lt_max_iff.mp h2 with h3 | h4
      · omega
      · omega

/-- A successful merge test keeps the next call within `max_dist` of the
envelope end, provided the threshold is positive. -/
theorem mergeStep_true_close {th : ℚ} {md : ℤ} (hmd : 0 ≤ md) (hth : 0 < th)
    {cs ce s e : ℤ}
    (h : mergeStep th md cs ce s e = true) : s ≤ ce + md := by
  unfold mergeStep at h
  rw [Bool.or_eq_true_iff] at h
  by_cases hpos : (0:ℤ) < max 0 (min e ce - max s cs)
  · have hlt : max s cs < min e ce := by omega
    have : s ≤ max s cs := le_max_left s cs
    have : max s cs < ce := lt_of_lt_of_le hlt (min_le_right e ce)
    omega
  · rcases h with h | h
    · rw [decide_eq_true_iff] at h
      exfalso
      have hinter : max 0 (min e ce - max s cs) = 0 := by omega
      rw [hinter, minRecip_zero] at h
      exact absurd (lt_of_lt_of_le hth h) (lt_irrefl 0)
    · rw [decide_eq_true_iff] at h
      rw [if_neg hpos] at h
      have : s - ce ≤ max (s - ce) (max (cs - e) 0) := le_max_left _ _
      omega

/-! ### Structural lemmas about the sweep -/

/-- A call starting more than `max_dist` past the envelope end fails the
merge test, provided the threshold is positive and the envelope is
nondegenerate. -/
theorem mergeStep_false_of_far {th : ℚ} {md : ℤ} (hth : 0 < th) (hmd : 0 ≤ md)
    {cs ce s e : ℤ} (hfar : ce + md < s) :
    mergeStep th md cs ce s e = false := by
  unfold mergeStep
  rw [Bool.or_eq_false_iff]
  have h1 : min e ce ≤ ce := min_le_right e ce
  have h2 : s ≤ max s cs := le_max_left s cs
  have h3 : min e ce - max s cs ≤ 0 := by omega
  have hinter : max 0 (min e ce - max s cs) = 0 := max_eq_left h3
  constructor
  · rw [decide_eq_false_iff_not, not_le, hinter, minRecip_zero]
    exact hth
  · rw [decide_eq_false_iff_not, not_le, hinter]
    have h4 : ¬ (0:ℤ) < 0 := lt_irrefl 0
    simp only [h4, if_false]
    exact lt_of_lt_of_le (by omega) (le_max_left (s - ce) (max (cs - e) 0))

theorem sweepAux_flatten (th : ℚ) (md : ℤ) (rest : List Call) (cid : ℕ)
    (cs ce : ℤ) (mem : List Call) :
    ((sweepAux th md rest cid cs ce mem).map Prod.snd).flatten
      = mem.reverse ++ rest := by
  induction rest generalizing cid cs ce mem with
  | nil => simp [sweepAux]
  | cons c rest ih =>
    by_cases hm : mergeStep th md cs ce c.start c.stop
    · rw [sweepAux, if_pos hm, ih]
      simp
    · rw [sweepAux, if_neg hm]
      simp only [List.map_cons, List.flatten_cons, ih]
      simp

theorem sweepAux_ids (th : ℚ) (md : ℤ) (rest : List Call) (cid : ℕ)
    (cs ce : ℤ) (mem : List Call) :
    (sweepAux th md rest cid cs ce mem).map Prod.fst
      = List.range' cid (sweepAux th md rest cid cs ce mem).length := by
  induction rest generalizing cid cs ce mem with
  | nil => simp [sweepAux]
  | cons c rest ih =>
    by_cases hm : mergeStep th md cs ce c.start c.stop
    · rw [sweepAux, if_pos hm]
      exact ih cid (min cs c.start) (max ce c.stop) (c :: mem)
    · rw [sweepAux, if_neg hm]
      simp only [List.map_cons, List.length_cons, List.range'_succ]
      rw [ih (cid + 1) c.start c.stop [c]]

theorem sweepAux_ne_nil (th : ℚ) (md : ℤ) (rest : List Call) (cid : ℕ)
    (cs ce : ℤ) {mem : List Call} (hne : mem ≠ []) :
    ∀ p ∈ sweepAux th md rest cid cs ce mem, p.2 ≠ [] := by
  induction rest generalizing cid cs ce mem with
  | nil =>
    intro p hp
    simp only [sweepAux, List.mem_singleton] at hp
    subst hp
    simpa using hne
  | cons c rest ih =>
    intro p hp
    by_cases hm : mergeStep th md cs ce c.start c.stop
    · rw [sweepAux, if_pos hm] at hp
      exact ih cid (min cs c.start) (max ce c.stop) (List.cons_ne_nil c mem) p hp
    · rw [sweepAux, if_neg hm] at hp
      rcases List.mem_cons.mp hp with h | h
      · subst h
        simpa using hne
      · exact ih (cid + 1) c.start c.stop (List.cons_ne_nil c []) p h

theorem sweepAux_mem_sorted (th : ℚ) (md : ℤ) (rest : List Call) (cid : ℕ)
    (cs ce : ℤ) (mem : List Call)
    (hsorted : List.Pairwise startLe (mem.reverse ++ rest)) :
    ∀ p ∈ sweepAux th md rest cid cs ce mem, List.Pairwise startLe p.2 := by
  induction rest generalizing cid cs ce mem with
  | nil =>
    intro p hp
    simp only [sweepAux, List.mem_singleton] at hp
    subst hp
    exact hsorted.sublist (List.sublist_append_left mem.reverse [])
  | cons c rest ih =>
    intro p hp
    by_cases hm : mergeStep th md cs ce c.start c.stop
    · rw [sweepAux, if_pos hm] at hp
      have hlist : (c :: mem).reverse ++ rest = mem.reverse ++ (c :: rest) := by
        simp
      exact ih cid (min cs c.start) (max ce c.stop) (c :: mem)
        (by rw [hlist]; exact hsorted) p hp
    · rw [sweepAux, if_neg hm] at hp
      rcases List.mem_cons.mp hp with h | h
      · subst h
        exact hsorted.sublist (List.sublist_append_left mem.reverse (c :: rest))
      · have hsub : List.Sublist (c :: rest) (mem.reverse ++ (c :: rest)) :=
          List.sublist_append_right mem.reverse (c :: rest)
        refine ih (cid + 1) c.start c.stop [c] ?_ p h
        simpa using hsorted.sublist hsub

theorem sweepAux_sep (th : ℚ) {md : ℤ} (hmd : 0 ≤ md) (rest : List Call)
    (cid : ℕ) (cs ce : ℤ) (mem : List Call)
    (hval : ∀ c ∈ mem.reverse ++ rest, c.start ≤ c.stop)
    (hsorted : List.Pairwise startLe (mem.reverse ++ rest))
    (hcsb : ∀ y ∈ rest, cs ≤ y.start)
    (hne : mem ≠ [])
    (hceq : ce = maxD (mem.map Call.stop)) :
    List.Pairwise (sepRel md) (sweepAux th md rest cid cs ce mem) := by
  induction rest generalizing cid cs ce mem with
  | nil => simp [sweepAux]
  | cons c rest ih =>
    by_cases hm : mergeStep th md cs ce c.start c.stop
    · rw [sweepAux, if_pos hm]
      have hlist : (c :: mem).reverse ++ rest = mem.reverse ++ (c :: rest) := by
        simp
      refine ih cid (min cs c.start) (max ce c.stop) (c :: mem)
        (by rw [hlist]; exact hval)
        (by rw [hlist]; exact hsorted)
        (fun y hy => le_trans (min_le_left cs c.start)
          (hcsb y (List.mem_cons_of_mem c hy)))
        (List.cons_ne_nil c mem) ?_
      have hmapne : mem.map Call.stop ≠ [] := by
        simpa using hne
      rw [List.map_cons, maxD_cons hmapne, hceq, max_comm]
    · rw [sweepAux, if_neg hm]
      have hcs : cs ≤ c.start := hcsb c (List.mem_cons_self c rest)
      have hcse : c.start ≤ c.stop :=
        hval c (by simp)
      have hmf : mergeStep th md cs ce c.start c.stop = false := by
        simpa using hm
      have hbreak : ce + md < c.start := mergeStep_false_gap hmd hcs hcse hmf
      have hsub : List.Sublist (c :: rest) (mem.reverse ++ (c :: rest)) :=
        List.sublist_append_right mem.reverse (c :: rest)
      have hsorted2 : List.Pairwise startLe (c :: rest) := hsorted.sublist hsub
      refine List.pairwise_cons.mpr ⟨?_, ?_⟩
      · intro q hq x hx y hy
        have hxm : x ∈ mem := List.mem_reverse.mp hx
        have hxe : x.stop ≤ ce := by
          rw [hceq]
          exact le_maxD (List.mem_map_of_mem Call.stop hxm)
        have hyflat : y ∈ ((sweepAux th md rest (cid + 1) c.start c.stop
            [c]).map Prod.snd).flatten :=
          List.mem_flatten.mpr ⟨q.2, List.mem_map_of_mem Prod.snd hq, hy⟩
        rw [sweepAux_flatten] at hyflat
        have hcy : c.start ≤ y.start := by
          simp only [List.reverse_cons, List.reverse_nil,
            List.nil_append, List.singleton_append] at hyflat
          rcases List.mem_cons.mp hyflat with h | h
          · exact h ▸ le_refl _
          · exact (List.pairwise_cons.mp hsorted2).1 y h
        omega
      · refine ih (cid + 1) c.start c.stop [c] ?_ ?_ ?_
          (List.cons_ne_nil c []) rfl
        · intro z hz
          exact hval z (hsub.subset (by simpa using hz))
        · simpa using hsorted2
        · intro y hy
          exact (List.pairwise_cons.mp hsorted2).1 y hy

theorem sweepAux_chain (th : ℚ) {md : ℤ} (hmd : 0 ≤ md) (hth : 0 < th)
    (rest : List Call) (cid : ℕ) (cs ce : ℤ) (mem : List Call)
    (hcsb : ∀ y ∈ rest, cs ≤ y.start)
    (hsorted : List.Pairwise startLe (mem.reverse ++ rest))
    (hne : mem ≠ [])
    (hceq : ce = maxD (mem.map Call.stop))
    (hchain : chainRev md mem) :
    ∀ p ∈ sweepAux th md rest cid cs ce mem, chainRev md p.2.reverse := by
  induction rest generalizing cid cs ce mem with
  | nil =>
    intro p hp
    simp only [sweepAux, List.mem_singleton] at hp
    subst hp
    simpa [List.reverse_reverse] using hchain
  | cons c rest ih =>
    intro p hp
    by_cases hm : mergeStep th md cs ce c.start c.stop
    · rw [sweepAux, if_pos hm] at hp
      have hlist : (c :: mem).reverse ++ rest = mem.reverse ++ (c :: rest) := by
        simp
      refine ih cid (min cs c.start) (max ce c.stop) (c :: mem)
        (fun y hy => le_trans (min_le_left cs c.start)
          (hcsb y (List.mem_cons_of_mem c hy)))
        (by rw [hlist]; exact hsorted)
        (List.cons_ne_nil c mem) ?_ ?_ p hp
      · have hmapne : mem.map Call.stop ≠ [] := by
          simpa using hne
        rw [List.map_cons, maxD_cons hmapne, hceq, max_comm]
      · refine ⟨Or.inr ?_, hchain⟩
        have := mergeStep_true_close hmd hth hm
        omega
    · rw [sweepAux, if_neg hm] at hp
      rcases List.mem_cons.mp hp with h | h
      · subst h
        simpa [List.reverse_reverse] using hchain
      · have hsub : List.Sublist (c :: rest) (mem.reverse ++ (c :: rest)) :=
          List.sublist_append_right mem.reverse (c :: rest)
        have hsorted2 : List.Pairwise startLe (c :: rest) := hsorted.sublist hsub
        refine ih (cid + 1) c.start c.stop [c]
          (fun y hy => (List.pairwise_cons.mp hsorted2).1 y hy)
          (by simpa using hsorted2)
          (List.cons_ne_nil c []) rfl ⟨Or.inl rfl, trivial⟩ p h

/-! ### Facts about `cluster_by_contig` -/

theorem sortCalls_perm (calls : List Call) : (sortCalls calls).Perm calls :=
  List.perm_insertionSort callLE calls

theorem sortCalls_pairwise (calls : List Call) :
    List.Pairwise startLe (sortCalls calls) := by
  have h : List.Sorted callLE (sortCalls calls) :=
    List.sorted_insertionSort callLE calls
  refine h.imp ?_
  intro a b hab
  rcases hab with h | ⟨h, _⟩
  · exact le_of_lt h
  · exact le_of_eq h

theorem cluster_flatten (th : ℚ) (md : ℤ) (calls : List Call) :
    ((cluster_by_contig th md calls).map Prod.snd).flatten = sortCalls calls := by
  unfold cluster_by_contig
  cases h : sortCalls calls with
  | nil => simp [clusterSorted]
  | cons c rest =>
    rw [clusterSorted, sweepAux_flatten]
    simp

theorem cluster_flatten_perm (th : ℚ) (md : ℤ) (calls : List Call) :
    ((cluster_by_contig th md calls).map Prod.snd).flatten.Perm calls := by
  rw [cluster_flatten]
  exact sortCalls_perm calls

theorem cluster_member_mem {th : ℚ} {md : ℤ} {calls : List Call}
    {p : ℕ × List Call} (hp : p ∈ cluster_by_contig th md calls)
    {c : Call} (hc : c ∈ p.2) : c ∈ calls := by
  have h : c ∈ ((cluster_by_contig th md calls).map Prod.snd).flatten :=
    List.mem_flatten.mpr ⟨p.2, List.mem_map_of_mem Prod.snd hp, hc⟩
  exact (cluster_flatten_perm th md calls).mem_iff.mp h

theorem cluster_ids (th : ℚ) (md : ℤ) (calls : List Call) :
    (cluster_by_contig th md calls).map Prod.fst
      = List.range' 1 (cluster_by_contig th md calls).length := by
  unfold cluster_by_contig
  cases h : sortCalls calls with
  | nil => simp [clusterSorted]
  | cons c rest => exact sweepAux_ids th md rest 1 c.start c.stop [c]

theorem cluster_ne_nil {th : ℚ} {md : ℤ} {calls : List Call} :
    ∀ p ∈ cluster_by_contig th md calls, p.2 ≠ [] := by
  unfold cluster_by_contig
  cases h : sortCalls calls with
  | nil => simp [clusterSorted]
  | cons c rest =>
    rw [clusterSorted]
    exact sweepAux_ne_nil th md rest 1 c.start c.stop (List.cons_ne_nil c [])

theorem cluster_mem_sorted {th : ℚ} {md : ℤ} {calls : List Call} :
    ∀ p ∈ cluster_by_contig th md calls, List.Pairwise startLe p.2 := by
  unfold cluster_by_contig
  cases h : sortCalls calls with
  | nil => simp [clusterSorted]
  | cons c rest =>
    rw [clusterSorted]
    refine sweepAux_mem_sorted th md rest 1 c.start c.stop [c] ?_
    have := sortCalls_pairwise calls
    rw [h] at this
    simpa using this

theorem cluster_sep (th : ℚ) {md : ℤ} (hmd : 0 ≤ md) {calls : List Call}
    (hval : ∀ c ∈ calls, c.start ≤ c.stop) :
    List.Pairwise (sepRel md) (cluster_by_contig th md calls) := by
  unfold cluster_by_contig
  have hvs : ∀ c ∈ sortCalls calls, c.start ≤ c.stop := by
    intro c hc
    exact hval c ((sortCalls_perm calls).subset hc)
  have hps := sortCalls_pairwise calls
  cases h : sortCalls calls with
  | nil => simp [clusterSorted]
  | cons c rest =>
    rw [h] at hvs hps
    rw [clusterSorted]
    refine sweepAux_sep th hmd rest 1 c.start c.stop [c]
      (by simpa using hvs) (by simpa using hps)
      (fun y hy => (List.pairwise_cons.mp hps).1 y hy)
      (List.cons_ne_nil c []) rfl

theorem cluster_chain {th : ℚ} {md : ℤ} (hmd : 0 ≤ md) (hth : 0 < th)
    {calls : List Call} :
    ∀ p ∈ cluster_by_contig th md calls, chainRev md p.2.reverse := by
  unfold cluster_by_contig
  have hps := sortCalls_pairwise calls
  cases h : sortCalls calls with
  | nil => simp [clusterSorted]
  | cons c rest =>
    rw [h] at hps
    rw [clusterSorted]
    exact sweepAux_chain th hmd hth rest 1 c.start c.stop [c]
      (fun y hy => (List.pairwise_cons.mp hps).1 y hy)
      (by simpa using hps)
      (List.cons_ne_nil c []) rfl ⟨Or.inl rfl, trivial⟩

/-- Inside a cluster satisfying the growth invariant, a member cannot
start more than `md` past the ends of all earlier-starting calls: some
member must bridge the gap.  Stated over the members listed most recent
first (starts non-increasing). -/
theorem chainRev_no_far {md : ℤ} : ∀ L : List Call,
    chainRev md L →
    List.Pairwise (fun a b => b.start ≤ a.start) L →
    ∀ x ∈ L, ∀ y ∈ L, x.start < y.start →
    (∀ z ∈ L, z.start < y.start → z.stop + md < y.start) → False := by
  intro L
  induction L with
  | nil =>
    intro _ _ x hx
    cases hx
  | cons c rest ih =>
    intro hchain hdesc x hx y hy hxy hfar
    obtain ⟨hc1, hdr⟩ := List.pairwise_cons.mp hdesc
    obtain ⟨hfirst, hcr⟩ := hchain
    rcases List.mem_cons.mp hy with hyc | hyr
    · have hycs : y.start = c.start := by rw [hyc]
      have hxr : x ∈ rest := by
        rcases List.mem_cons.mp hx with hxc | hxr
        · exfalso
          rw [hxc] at hxy
          omega
        · exact hxr
      have hrne : rest ≠ [] := List.ne_nil_of_mem hxr
      rcases hfirst with hnil | hfc
      · exact hrne hnil
      · have hmapne : rest.map Call.stop ≠ [] := by
          simpa using hrne
        obtain ⟨v, hvmem, hveq⟩ := List.mem_map.mp (maxD_mem hmapne)
        by_cases hzy : v.start < y.start
        · have hv := hfar v (List.mem_cons_of_mem c hvmem) hzy
          omega
        · have hvle : v.start ≤ c.start := hc1 v hvmem
          have hveq2 : v.start = y.start := by omega
          refine ih hcr hdr x hxr v hvmem (by omega) ?_
          intro w hw hws
          have := hfar w (List.mem_cons_of_mem c hw) (by omega)
          omega
    · have hxr : x ∈ rest := by
        rcases List.mem_cons.mp hx with hxc | hxr
        · exfalso
          have := hc1 y hyr
          rw [hxc] at hxy
          omega
        · exact hxr
      exact ih hcr hdr x hxr y hyr hxy
        (fun z hz hzs => hfar z (List.mem_cons_of_mem c hz) hzs)

/-! ### Facts about the truncated median -/

theorem truncHalf_double (a : ℤ) : truncHalf (a + a) = a := by
  unfold truncHalf
  by_cases h : (0:ℤ) ≤ a + a
  · rw [if_pos h]
    have : a + a = 2 * a := by ring
    rw [this, Int.mul_ediv_cancel_left a (by norm_num)]
  · rw [if_neg h]
    have : -(a + a) = 2 * (-a) := by ring
    rw [this, Int.mul_ediv_cancel_left (-a) (by norm_num)]
    ring

theorem truncHalf_mono {a b : ℤ} (h : a ≤ b) : truncHalf a ≤ truncHalf b := by
  unfold truncHalf
  by_cases ha : (0:ℤ) ≤ a
  · rw [if_pos ha, if_pos (le_trans ha h)]
    exact Int.ediv_le_ediv (by norm_num) h
  · rw [if_neg ha]
    by_cases hb : (0:ℤ) ≤ b
    · rw [if_pos hb]
      have h1 : (0:ℤ) ≤ (-a) / 2 := Int.ediv_nonneg (by omega) (by norm_num)
      have h2 : (0:ℤ) ≤ b / 2 := Int.ediv_nonneg hb (by norm_num)
      omega
    · rw [if_neg hb]
      have : (-b) / 2 ≤ (-a) / 2 := Int.ediv_le_ediv (by norm_num) (by omega)
      omega

theorem truncHalf_between {a b : ℤ} (h : a ≤ b) :
    a ≤ truncHalf (a + b) ∧ truncHalf (a + b) ≤ b := by
  constructor
  · have := truncHalf_mono (show a + a ≤ a + b by omega)
    rw [truncHalf_double] at this
    exact this
  · have := truncHalf_mono (show a + b ≤ b + b by omega)
    rw [truncHalf_double] at this
    exact this

theorem medianInt_bounds {l : List ℤ} (hl : l ≠ []) :
    minD l ≤ medianInt l ∧ medianInt l ≤ maxD l := by
  have hperm : (List.insertionSort (· ≤ ·) l).Perm l :=
    List.perm_insertionSort (· ≤ ·) l
  have hsort : List.Sorted (· ≤ ·) (List.insertionSort (· ≤ ·) l) :=
    List.sorted_insertionSort (· ≤ ·) l
  set s := List.insertionSort (· ≤ ·) l with hs
  have hlen : s.length = l.length := hperm.length_eq
  have hlpos : 0 < l.length := List.length_pos.mpr hl
  have hspos : 0 < s.length := by omega
  have hmem : ∀ x ∈ s, minD l ≤ x ∧ x ≤ maxD l := by
    intro x hx
    have : x ∈ l := hperm.subset hx
    exact ⟨minD_le this, le_maxD this⟩
  unfold medianInt
  rw [← hs]
  by_cases hpar : s.length % 2 = 1
  · rw [if_pos hpar]
    have hk : s.length / 2 < s.length := Nat.div_lt_self hspos (by norm_num)
    rw [List.getD_eq_getElem s 0 hk]
    exact hmem _ (List.getElem_mem hk)
  · rw [if_neg hpar]
    have hk2 : s.length / 2 < s.length := Nat.div_lt_self hspos (by norm_num)
    have hge2 : 2 ≤ s.length := by omega
    have hk1lt : s.length / 2 - 1 < s.length := by omega
    have hdiv : 1 ≤ s.length / 2 := by
      have := (Nat.one_le_div_iff (show 0 < 2 by norm_num)).mpr hge2
      exact this
    rw [List.getD_eq_getElem s 0 hk1lt, List.getD_eq_getElem s 0 hk2]
    have hab : s[s.length / 2 - 1] ≤ s[s.length / 2] := by
      rcases List.pairwise_iff_getElem.mp hsort (s.length / 2 - 1) (s.length / 2)
        hk1lt hk2 (by omega) with h
      exact h
    obtain ⟨h1, _⟩ := hmem _ (List.getElem_mem hk1lt)
    obtain ⟨_, h2⟩ := hmem _ (List.getElem_mem hk2)
    obtain ⟨hb1, hb2⟩ := truncHalf_between hab
    exact ⟨le_trans h1 hb1, le_trans hb2 h2⟩

theorem sorted_countP_ge (s : List ℤ) (hsort : List.Sorted (· ≤ ·) s)
    {k : ℕ} (hk : k < s.length) :
    s.length - k ≤ s.countP (fun y => decide (s[k] ≤ y)) := by
  have hsplit : s.take k ++ s.drop k = s := List.take_append_drop k s
  have hdropall : ∀ y ∈ s.drop k, s[k] ≤ y := by
    intro y hy
    obtain ⟨i, hi, hgy⟩ := List.mem_iff_getElem.mp hy
    have hilen : k + i < s.length := by
      have := List.length_drop k s
      omega
    have : (s.drop k)[i] = s[k + i] := List.getElem_drop s
    rw [this] at hgy
    rcases Nat.eq_zero_or_pos i with h0 | hpos
    · subst h0
      simpa using hgy.le
    · have := List.pairwise_iff_getElem.mp hsort k (k + i) hk hilen (by omega)
      omega
  have hcnt : (s.drop k).countP (fun y => decide (s[k] ≤ y))
      = (s.drop k).length := by
    rw [List.countP_eq_length]
    intro a ha
    exact decide_eq_true (hdropall a ha)
  calc s.length - k = (s.drop k).length := (List.length_drop k s).symm
    _ = (s.drop k).countP (fun y => decide (s[k] ≤ y)) := hcnt.symm
    _ ≤ (s.take k).countP (fun y => decide (s[k] ≤ y))
        + (s.drop k).countP (fun y => decide (s[k] ≤ y)) := Nat.le_add_left _ _
    _ = s.countP (fun y => decide (s[k] ≤ y)) := by
        rw [← List.countP_append, hsplit]

theorem sorted_le_of_countP {s : List ℤ} (hsort : List.Sorted (· ≤ ·) s)
    {k : ℕ} (hk : k < s.length) {a : ℤ}
    (h : s.length - k ≤ s.countP (fun y => decide (a ≤ y))) : a ≤ s[k] := by
  by_contra hlt
  rw [not_le] at hlt
  have hsplit : s.take (k + 1) ++ s.drop (k + 1) = s := List.take_append_drop _ s
  have htake0 : (s.take (k + 1)).countP (fun y => decide (a ≤ y)) = 0 := by
    rw [List.countP_eq_zero]
    intro y hy
    obtain ⟨i, hi, hgy⟩ := List.mem_iff_getElem.mp hy
    have hitak : i < k + 1 := by
      have := List.length_take (k + 1) s
      omega
    have hile : i < s.length := by omega
    have hgy2 : s[i] = y := by
      have heq : (s.take (k + 1))[i] = s[i] := List.getElem_take s
      rw [heq] at hgy
      exact hgy
    have hyk : y ≤ s[k] := by
      rcases Nat.lt_or_ge i k with hik | hik
      · have := List.pairwise_iff_getElem.mp hsort i k hile hk hik
        omega
      · have hik2 : i = k := by omega
        subst hik2
        omega
    simp only [decide_eq_true_eq]
    omega
  have hdrople : (s.drop (k + 1)).countP (fun y => decide (a ≤ y))
      ≤ s.length - (k + 1) := by
    have := @List.countP_le_length ℤ (fun y => decide (a ≤ y)) (s.drop (k + 1))
    rw [List.length_drop] at this
    exact this
  have : s.countP (fun y => decide (a ≤ y)) ≤ s.length - (k + 1) := by
    calc s.countP (fun y => decide (a ≤ y))
        = (s.take (k + 1)).countP (fun y => decide (a ≤ y))
          + (s.drop (k + 1)).countP (fun y => decide (a ≤ y)) := by
          rw [← List.countP_append, hsplit]
      _ = (s.drop (k + 1)).countP (fun y => decide (a ≤ y)) := by
          rw [htake0]; omega
      _ ≤ s.length - (k + 1) := hdrople
  omega

theorem countP_le_of_forall2 {xs ys : List ℤ}
    (h : List.Forall₂ (· ≤ ·) xs ys) (a : ℤ) :
    xs.countP (fun y => decide (a ≤ y)) ≤ ys.countP (fun y => decide (a ≤ y)) := by
  induction h with
  | nil => exact le_refl _
  | @cons x y l1 l2 hxy htail ih =>
    rw [List.countP_cons, List.countP_cons]
    by_cases hax : a ≤ x
    · have h1 : decide (a ≤ x) = true := decide_eq_true hax
      have h2 : decide (a ≤ y) = true := decide_eq_true (le_trans hax hxy)
      simp only [h1, h2, if_pos]
      omega
    · have h1 : decide (a ≤ x) = false := decide_eq_false hax
      simp only [h1, Bool.false_eq_true, if_false]
      have hsplit : (if decide (a ≤ y) = true then 1 else 0) = 1 ∨
          (if decide (a ≤ y) = true then 1 else 0) = 0 := by
        split
        · exact Or.inl rfl
        · exact Or.inr rfl
      rcases hsplit with h2 | h2 <;> rw [h2] <;> omega

theorem sorted_dominates {xs ys : List ℤ}
    (h : List.Forall₂ (· ≤ ·) xs ys) {k : ℕ}
    (hkx : k < (List.insertionSort (· ≤ ·) xs).length)
    (hky : k < (List.insertionSort (· ≤ ·) ys).length) :
    (List.insertionSort (· ≤ ·) xs)[k] ≤ (List.insertionSort (· ≤ ·) ys)[k] := by
  set sx := List.insertionSort (· ≤ ·) xs with hsx
  set sy := List.insertionSort (· ≤ ·) ys with hsy
  have hpx : sx.Perm xs := List.perm_insertionSort (· ≤ ·) xs
  have hpy : sy.Perm ys := List.perm_insertionSort (· ≤ ·) ys
  have hlx : sx.length = xs.length := hpx.length_eq
  have hly : sy.length = ys.length := hpy.length_eq
  have hlxy : xs.length = ys.length := h.length_eq
  have h1 : sx.length - k ≤ sx.countP (fun y => decide (sx[k] ≤ y)) :=
    sorted_countP_ge sx (List.sorted_insertionSort (· ≤ ·) xs) hkx
  have h2 : sx.countP (fun y => decide (sx[k] ≤ y))
      = xs.countP (fun y => decide (sx[k] ≤ y)) := hpx.countP_eq _
  have h3 : xs.countP (fun y => decide (sx[k] ≤ y))
      ≤ ys.countP (fun y => decide (sx[k] ≤ y)) := countP_le_of_forall2 h _
  have h4 : ys.countP (fun y => decide (sx[k] ≤ y))
      = sy.countP (fun y => decide (sx[k] ≤ y)) := (hpy.countP_eq _).symm
  have hkey : sy.length - k ≤ sy.countP (fun y => decide (sx[k] ≤ y)) := by
    calc sy.length - k ≤ sx.length - k := by omega
      _ ≤ sx.countP (fun y => decide (sx[k] ≤ y)) := h1
      _ = xs.countP (fun y => decide (sx[k] ≤ y)) := h2
      _ ≤ ys.countP (fun y => decide (sx[k] ≤ y)) := h3
      _ = sy.countP (fun y => decide (sx[k] ≤ y)) := h4
  exact sorted_le_of_countP (List.sorted_insertionSort (· ≤ ·) ys) hky hkey

theorem medianInt_mono {xs ys : List ℤ} (h : List.Forall₂ (· ≤ ·) xs ys) :
    medianInt xs ≤ medianInt ys := by
  have hpx : (List.insertionSort (· ≤ ·) xs).Perm xs :=
    List.perm_insertionSort (· ≤ ·) xs
  have hpy : (List.insertionSort (· ≤ ·) ys).Perm ys :=
    List.perm_insertionSort (· ≤ ·) ys
  have hlxy : xs.length = ys.length := h.length_eq
  unfold medianInt
  simp only [hpx.length_eq, hpy.length_eq, hlxy]
  by_cases hnil : ys.length = 0
  · have hxn : xs = [] := by
      have : xs.length = 0 := by omega
      exact List.length_eq_zero.mp this
    have hyn : ys = [] := List.length_eq_zero.mp hnil
    subst hxn; subst hyn
    simp
  by_cases hpar : ys.length % 2 = 1
  · rw [if_pos hpar, if_pos hpar]
    have hk : ys.length / 2 < ys.length := Nat.div_lt_self (by omega) (by norm_num)
    have hkx : ys.length / 2 < (List.insertionSort (· ≤ ·) xs).length := by
      rw [hpx.length_eq]; omega
    have hky : ys.length / 2 < (List.insertionSort (· ≤ ·) ys).length := by
      rw [hpy.length_eq]; omega
    rw [List.getD_eq_getElem _ 0 hkx, List.getD_eq_getElem _ 0 hky]
    exact sorted_dominates h hkx hky
  · rw [if_neg hpar, if_neg hpar]
    have hk2 : ys.length / 2 < ys.length := Nat.div_lt_self (by omega) (by norm_num)
    have hk1 : ys.length / 2 - 1 < ys.length := by omega
    have hk2x : ys.length / 2 < (List.insertionSort (· ≤ ·) xs).length := by
      rw [hpx.length_eq]; omega
    have hk2y : ys.length / 2 < (List.insertionSort (· ≤ ·) ys).length := by
      rw [hpy.length_eq]; omega
    have hk1x : ys.length / 2 - 1 < (List.insertionSort (· ≤ ·) xs).length := by
      rw [hpx.length_eq]; omega
    have hk1y : ys.length / 2 - 1 < (List.insertionSort (· ≤ ·) ys).length := by
      rw [hpy.length_eq]; omega
    rw [List.getD_eq_getElem _ 0 hk1x, List.getD_eq_getElem _ 0 hk2x,
      List.getD_eq_getElem _ 0 hk1y, List.getD_eq_getElem _ 0 hk2y]
    have hd1 := sorted_dominates h hk1x hk1y
    have hd2 := sorted_dominates h hk2x hk2y
    exact truncHalf_mono (by omega)

/-- The pointwise comparison of member starts against member ends. -/
theorem forall2_start_stop {members : List Call}
    (hval : ∀ c ∈ members, c.start ≤ c.stop) :
    List.Forall₂ (· ≤ ·) (members.map Call.start) (members.map Call.stop) := by
  induction members with
  | nil => exact List.Forall₂.nil
  | cons c rest ih =>
    refine List.forall₂_cons.mpr ⟨hval c (List.mem_cons_self c rest), ?_⟩
    exact ih (fun x hx => hval x (List.mem_cons_of_mem c hx))

/-! ### Facts about `best_group` -/

theorem compOf_mem_self (vs : List ℤ) (tol : ℤ) (i : ℕ) :
    i ∈ compOf vs tol i := by
  unfold compOf
  rw [List.mem_insertionSort]
  have hsub : ∀ n, i ∈ (expandOnce vs tol)^[n] [i] := by
    intro n
    induction n with
    | zero => simp
    | succ n ih =>
      rw [Function.iterate_succ_apply']
      unfold expandOnce
      rw [List.mem_dedup]
      exact List.mem_append_left _ ih
  exact hsub vs.length

theorem compOf_lt_length (vs : List ℤ) (tol : ℤ) {i : ℕ} (hi : i < vs.length) :
    ∀ j ∈ compOf vs tol i, j < vs.length := by
  intro j hj
  unfold compOf at hj
  rw [List.mem_insertionSort] at hj
  have hsub : ∀ n, ∀ j ∈ (expandOnce vs tol)^[n] [i], j < vs.length := by
    intro n
    induction n with
    | zero =>
      intro j hj
      simp only [Function.iterate_zero_apply, List.mem_singleton] at hj
      exact hj ▸ hi
    | succ n ih =>
      rw [Function.iterate_succ_apply']
      intro j hj
      unfold expandOnce at hj
      rw [List.mem_dedup] at hj
      rcases List.mem_append.mp hj with h | h
      · exact ih j h
      · obtain ⟨u, _, hu⟩ := List.mem_flatMap.mp h
        unfold nbrs at hu
        have := List.mem_filter.mp hu
        exact List.mem_range.mp this.1
  exact hsub vs.length j hj

theorem comps_forall {vs : List ℤ} {tol : ℤ} {P : List ℕ → Prop}
    (hP : ∀ i ∈ List.range vs.length, P (compOf vs tol i)) :
    ∀ c ∈ comps vs tol, P c := by
  unfold comps
  have hgen : ∀ (idxs : List ℕ) (acc : List (List ℕ)),
      (∀ c ∈ acc, P c) → (∀ i ∈ idxs, P (compOf vs tol i)) →
      ∀ c ∈ idxs.foldl
        (fun acc i =>
          if acc.any (fun c => c.contains i) then acc
          else acc ++ [compOf vs tol i]) acc, P c := by
    intro idxs
    induction idxs with
    | nil => intro acc hacc _ c hc; exact hacc c hc
    | cons i idxs ih =>
      intro acc hacc hidx c hc
      rw [List.foldl_cons] at hc
      by_cases hseen : acc.any (fun c => c.contains i)
      · rw [if_pos hseen] at hc
        exact ih acc hacc
          (fun j hj => hidx j (List.mem_cons_of_mem i hj)) c hc
      · rw [if_neg hseen] at hc
        refine ih (acc ++ [compOf vs tol i]) ?_
          (fun j hj => hidx j (List.mem_cons_of_mem i hj)) c hc
        intro d hd
        rcases List.mem_append.mp hd with h | h
        · exact hacc d h
        · rw [List.mem_singleton.mp h]
          exact hidx i (List.mem_cons_self i idxs)
  exact hgen (List.range vs.length) [] (by intro c hc; cases hc) hP

theorem comps_ne_nil (vs : List ℤ) (tol : ℤ) :
    ∀ c ∈ comps vs tol, c ≠ [] :=
  comps_forall (fun i _ => List.ne_nil_of_mem (compOf_mem_self vs tol i))

theorem comps_mem_lt (vs : List ℤ) (tol : ℤ) :
    ∀ c ∈ comps vs tol, ∀ j ∈ c, j < vs.length :=
  comps_forall (fun _ hi => compOf_lt_length vs tol (List.mem_range.mp hi))

theorem keyLt_irrefl (vs : List ℤ) (a : List ℕ) : ¬ keyLt vs a a := by
  unfold keyLt
  omega

theorem keyLt_trans {vs : List ℤ} {a b c : List ℕ}
    (h1 : keyLt vs a b) (h2 : keyLt vs b c) : keyLt vs a c := by
  unfold keyLt at *
  omega

theorem keyLt_neg_trans {vs : List ℤ} {a b c : List ℕ}
    (h1 : ¬ keyLt vs a b) (h2 : ¬ keyLt vs b c) : ¬ keyLt vs a c := by
  unfold keyLt at *
  omega

theorem pickBest_cons (vs : List ℤ) (g c : List ℕ) (gs : List (List ℕ)) :
    pickBest vs g (c :: gs) = pickBest vs (if keyLt vs c g then c else g) gs := rfl

theorem pickBest_mem (vs : List ℤ) (g : List ℕ) (gs : List (List ℕ)) :
    pickBest vs g gs ∈ g :: gs := by
  induction gs generalizing g with
  | nil => exact List.mem_singleton.mpr rfl
  | cons c gs ih =>
    rw [pickBest_cons]
    by_cases h : keyLt vs c g
    · rw [if_pos h]
      rcases List.mem_cons.mp (ih c) with h2 | h2
      · exact List.mem_cons_of_mem g (List.mem_cons.mpr (Or.inl h2))
      · exact List.mem_cons_of_mem g (List.mem_cons_of_mem c h2)
    · rw [if_neg h]
      rcases List.mem_cons.mp (ih g) with h2 | h2
      · exact List.mem_cons.mpr (Or.inl h2)
      · exact List.mem_cons_of_mem g (List.mem_cons_of_mem c h2)

theorem pickBest_best (vs : List ℤ) (g : List ℕ) (gs : List (List ℕ)) :
    ∀ x ∈ g :: gs, ¬ keyLt vs x (pickBest vs g gs) := by
  induction gs generalizing g with
  | nil =>
    intro x hx
    rw [List.mem_singleton.mp hx]
    exact keyLt_irrefl vs g
  | cons c gs ih =>
    intro x hx
    rw [pickBest_cons]
    by_cases h : keyLt vs c g
    · rw [if_pos h]
      rcases List.mem_cons.mp hx with h2 | h2
      · subst h2
        intro hk
        exact ih c c (List.mem_cons_self c gs) (keyLt_trans h hk)
      · exact ih c x h2
    · rw [if_neg h]
      rcases List.mem_cons.mp hx with h2 | h2
      · subst h2
        exact ih x x (List.mem_cons_self x gs)
      · rcases List.mem_cons.mp h2 with h3 | h3
        · subst h3
          exact keyLt_neg_trans h (ih g g (List.mem_cons_self g gs))
        · exact ih g x (List.mem_cons_of_mem g h3)

theorem best_group_none_iff (vs : List ℤ) (tools : List String) (tol : ℤ) :
    best_group vs tools tol = none ↔ ∀ c ∈ comps vs tol, c.length = 1 := by
  unfold best_group
  cases hf : (comps vs tol).filter (fun c => decide (2 ≤ c.length)) with
  | nil =>
    simp only [true_iff]
    intro c hc
    have h1 : ¬ (2 ≤ c.length) := by
      have := List.filter_eq_nil_iff.mp hf c hc
      simpa using this
    have h2 : c ≠ [] := comps_ne_nil vs tol c hc
    have h3 : 0 < c.length := List.length_pos.mpr h2
    omega
  | cons g gs =>
    simp only [reduceCtorEq, false_iff, not_forall]
    have hg : g ∈ (comps vs tol).filter (fun c => decide (2 ≤ c.length)) := by
      rw [hf]
      exact List.mem_cons_self g gs
    have := List.mem_filter.mp hg
    refine ⟨g, this.1, ?_⟩
    have h2 : 2 ≤ g.length := by simpa using this.2
    omega

theorem best_group_some {vs : List ℤ} {tools : List String} {tol : ℤ}
    {m : ℤ} {used : List String}
    (h : best_group vs tools tol = some (m, used)) :
    ∃ best ∈ (comps vs tol).filter (fun c => decide (2 ≤ c.length)),
      (∀ g ∈ (comps vs tol).filter (fun c => decide (2 ≤ c.length)),
        ¬ keyLt vs g best) ∧
      m = medianInt (groupVals vs best) ∧
      used = best.map (fun k => tools.getD k noTool) := by
  unfold best_group at h
  cases hf : (comps vs tol).filter (fun c => decide (2 ≤ c.length)) with
  | nil =>
    rw [hf] at h
    simp at h
  | cons g gs =>
    rw [hf] at h
    simp only [Option.some.injEq, Prod.mk.injEq] at h
    refine ⟨pickBest vs g gs, ?_, ?_, h.1.symm, h.2.symm⟩
    · exact pickBest_mem vs g gs
    · exact pickBest_best vs g gs

/-- Every value of a component of the tolerance graph is a value of the
input list. -/
theorem groupVals_subset {vs : List ℤ} {tol : ℤ} {c : List ℕ}
    (hc : c ∈ comps vs tol) : ∀ v ∈ groupVals vs c, v ∈ vs := by
  intro v hv
  obtain ⟨j, hj, hjv⟩ := List.mem_map.mp hv
  have hjlt : j < vs.length := comps_mem_lt vs tol c hc j hj
  rw [List.getD_eq_getElem vs 0 hjlt] at hjv
  exact hjv ▸ List.getElem_mem hjlt

/-! ### Facts about the per-cluster resolver -/

theorem clusterTools_mem {members : List Call} {t : String} :
    t ∈ clusterTools members ↔ t ∈ members.map Call.tool := by
  unfold clusterTools sortStrings
  rw [List.mem_insertionSort, List.mem_dedup]

theorem clusterTools_ne_nil {members : List Call} (hne : members ≠ []) :
    clusterTools members ≠ [] := by
  cases members with
  | nil => exact absurd rfl hne
  | cons c rest =>
    have : c.tool ∈ clusterTools (c :: rest) :=
      clusterTools_mem.mpr (List.mem_map_of_mem Call.tool
        (List.mem_cons_self c rest))
    exact List.ne_nil_of_mem this

theorem toolStarts_ne_nil {members : List Call} {t : String}
    (ht : t ∈ clusterTools members) : toolStarts members t ≠ [] := by
  obtain ⟨c, hc, hct⟩ := List.mem_map.mp (clusterTools_mem.mp ht)
  have : c ∈ members.filter (fun c => decide (c.tool = t)) :=
    List.mem_filter.mpr ⟨hc, decide_eq_true hct⟩
  unfold toolStarts
  exact List.ne_nil_of_mem (List.mem_map_of_mem Call.start this)

theorem toolStops_ne_nil {members : List Call} {t : String}
    (ht : t ∈ clusterTools members) : toolStops members t ≠ [] := by
  obtain ⟨c, hc, hct⟩ := List.mem_map.mp (clusterTools_mem.mp ht)
  have : c ∈ members.filter (fun c => decide (c.tool = t)) :=
    List.mem_filter.mpr ⟨hc, decide_eq_true hct⟩
  unfold toolStops
  exact List.ne_nil_of_mem (List.mem_map_of_mem Call.stop this)

theorem repStart_eq {members : List Call} {t : String}
    (ht : t ∈ clusterTools members) :
    repStart members t = some (medianInt (toolStarts members t)) := by
  unfold repStart medianOpt
  rw [if_neg]
  rw [List.isEmpty_iff]
  exact toolStarts_ne_nil ht

theorem repStop_eq {members : List Call} {t : String}
    (ht : t ∈ clusterTools members) :
    repStop members t = some (medianInt (toolStops members t)) := by
  unfold repStop medianOpt
  rw [if_neg]
  rw [List.isEmpty_iff]
  exact toolStops_ne_nil ht

theorem all_tools_of_single {members : List Call} {t : String}
    (hts : clusterTools members = [t]) : ∀ c ∈ members, c.tool = t := by
  intro c hc
  have : c.tool ∈ clusterTools members :=
    clusterTools_mem.mpr (List.mem_map_of_mem Call.tool hc)
  rw [hts] at this
  exact List.mem_singleton.mp this

theorem dedup_all_eq {α : Type} [DecidableEq α] {l : List α} {t : α}
    (hne : l ≠ []) (hall : ∀ x ∈ l, x = t) : l.dedup = [t] := by
  induction l with
  | nil => exact absurd rfl hne
  | cons x r ih =>
    have hxt : x = t := hall x (List.mem_cons_self x r)
    subst hxt
    cases r with
    | nil => simp
    | cons y rr =>
      have hr : (y :: rr).dedup = [x] :=
        ih (List.cons_ne_nil y rr) (fun z hz => hall z (List.mem_cons_of_mem x hz))
      rw [List.dedup_cons_of_mem]
      · exact hr
      · have : x ∈ (y :: rr).dedup := by
          rw [hr]
          exact List.mem_singleton.mpr rfl
        exact List.mem_dedup.mp this

theorem clusterTools_single {members : List Call} {t : String}
    (hne : members ≠ []) (hall : ∀ c ∈ members, c.tool = t) :
    clusterTools members = [t] := by
  unfold clusterTools
  have hmne : members.map Call.tool ≠ [] := by
    simpa using hne
  have hmall : ∀ x ∈ members.map Call.tool, x = t := by
    intro x hx
    obtain ⟨c, hc, hct⟩ := List.mem_map.mp hx
    exact hct ▸ hall c hc
  rw [dedup_all_eq hmne hmall]
  rfl

theorem filter_tool_all {members : List Call} {t : String}
    (hall : ∀ c ∈ members, c.tool = t) :
    members.filter (fun c => decide (c.tool = t)) = members := by
  rw [List.filter_eq_self]
  intro c hc
  exact decide_eq_true (hall c hc)

theorem resolveCluster_single_eq {members : List Call} {t : String}
    (hts : clusterTools members = [t]) (tol : ℤ) (contig : String) :
    resolveCluster tol contig members = some (singleRecord contig t members) := by
  have ht : t ∈ clusterTools members := by
    rw [hts]
    exact List.mem_singleton.mpr rfl
  unfold resolveCluster
  rw [hts]
  show (do
    let s ← repStart members t
    let e ← repStop members t
    pure
      { consensus_id := mkId contig s e
        contig := contig
        n_tools := 1
        tools := [t]
        consensus_start := s
        consensus_end := e
        method := "single_tool"
        used_tools_start := [t]
        used_tools_end := [t] } : Option ConsensusRecord)
    = some (singleRecord contig t members)
  rw [repStart_eq ht, repStop_eq ht]
  rfl

theorem resolveCluster_multi_eq {members : List Call} {t1 t2 : String}
    {ts : List String} (hts : clusterTools members = t1 :: t2 :: ts)
    (tol : ℤ) (contig : String) :
    resolveCluster tol contig members
      = some (resolveMulti tol contig (clusterTools members)
          (repStartsD members) (repStopsD members)) := by
  have hs : optList ((t1 :: t2 :: ts).map (repStart members))
      = some ((t1 :: t2 :: ts).map (fun t => medianInt (toolStarts members t))) := by
    refine optList_map_some ?_
    intro t ht
    exact repStart_eq (hts ▸ ht)
  have he : optList ((t1 :: t2 :: ts).map (repStop members))
      = some ((t1 :: t2 :: ts).map (fun t => medianInt (toolStops members t))) := by
    refine optList_map_some ?_
    intro t ht
    exact repStop_eq (hts ▸ ht)
  have hrs : repStartsD members
      = (t1 :: t2 :: ts).map (fun t => medianInt (toolStarts members t)) := by
    unfold repStartsD
    rw [hts]
  have hre : repStopsD members
      = (t1 :: t2 :: ts).map (fun t => medianInt (toolStops members t)) := by
    unfold repStopsD
    rw [hts]
  unfold resolveCluster
  rw [hts]
  show (do
    let starts ← optList ((t1 :: t2 :: ts).map (repStart members))
    let stops ← optList ((t1 :: t2 :: ts).map (repStop members))
    pure (resolveMulti tol contig (t1 :: t2 :: ts) starts stops)
      : Option ConsensusRecord)
    = some (resolveMulti tol contig (t1 :: t2 :: ts)
        (repStartsD members) (repStopsD members))
  rw [hs, he, hrs, hre]
  rfl

theorem resolveCluster_isSome {members : List Call} (hne : members ≠ [])
    (tol : ℤ) (contig : String) :
    (resolveCluster tol contig members).isSome = true := by
  cases hts : clusterTools members with
  | nil => exact absurd hts (clusterTools_ne_nil hne)
  | cons t rest =>
    cases rest with
    | nil =>
      rw [resolveCluster_single_eq hts tol contig]
      rfl
    | cons t2 ts =>
      rw [resolveCluster_multi_eq hts tol contig]
      rfl

theorem resolveCluster_id_format {members : List Call} {r : ConsensusRecord}
    {tol : ℤ} {contig : String}
    (h : resolveCluster tol contig members = some r) :
    r.contig = contig ∧
      r.consensus_id = mkId contig r.consensus_start r.consensus_end := by
  cases hts : clusterTools members with
  | nil =>
    unfold resolveCluster at h
    rw [hts] at h
    cases h
  | cons t rest =>
    cases rest with
    | nil =>
      rw [resolveCluster_single_eq hts tol contig] at h
      have hr : r = singleRecord contig t members := by
        exact (Option.some.injEq _ _ ▸ h).symm
      subst hr
      exact ⟨rfl, rfl⟩
    | cons t2 ts =>
      rw [resolveCluster_multi_eq hts tol contig] at h
      have hr : r = resolveMulti tol contig (clusterTools members)
          (repStartsD members) (repStopsD members) := by
        exact (Option.some.injEq _ _ ▸ h).symm
      subst hr
      unfold resolveMulti
      constructor
      · rfl
      · rfl

theorem toolStarts_subset {members : List Call} {t : String} :
    ∀ v ∈ toolStarts members t, v ∈ members.map Call.start := by
  intro v hv
  obtain ⟨c, hc, hcv⟩ := List.mem_map.mp hv
  exact hcv ▸ List.mem_map_of_mem Call.start ((List.filter_sublist members).subset hc)

theorem toolStops_subset {members : List Call} {t : String} :
    ∀ v ∈ toolStops members t, v ∈ members.map Call.stop := by
  intro v hv
  obtain ⟨c, hc, hcv⟩ := List.mem_map.mp hv
  exact hcv ▸ List.mem_map_of_mem Call.stop ((List.filter_sublist members).subset hc)

/-- A sublist relation on bounds: the median of a nonempty sublist stays
within the min/max bounds of the enclosing list. -/
theorem medianInt_sub_bounds {sub sup : List ℤ} (hne : sub ≠ [])
    (hsubset : ∀ v ∈ sub, v ∈ sup) :
    minD sup ≤ medianInt sub ∧ medianInt sub ≤ maxD sup := by
  obtain ⟨h1, h2⟩ := medianInt_bounds hne
  have h3 : minD sup ≤ minD sub := minD_le (hsubset _ (minD_mem hne))
  have h4 : maxD sub ≤ maxD sup := le_maxD (hsubset _ (maxD_mem hne))
  exact ⟨le_trans h3 h1, le_trans h2 h4⟩

theorem repStartsD_bounds {members : List Call} :
    ∀ v ∈ repStartsD members,
      minD (members.map Call.start) ≤ v ∧ v ≤ maxD (members.map Call.start) := by
  intro v hv
  obtain ⟨t, ht, htv⟩ := List.mem_map.mp hv
  subst htv
  exact medianInt_sub_bounds (toolStarts_ne_nil ht) toolStarts_subset

theorem repStopsD_bounds {members : List Call} :
    ∀ v ∈ repStopsD members,
      minD (members.map Call.stop) ≤ v ∧ v ≤ maxD (members.map Call.stop) := by
  intro v hv
  obtain ⟨t, ht, htv⟩ := List.mem_map.mp hv
  subst htv
  exact medianInt_sub_bounds (toolStops_ne_nil ht) toolStops_subset

theorem repStartsD_ne_nil {members : List Call} (hne : members ≠ []) :
    repStartsD members ≠ [] := by
  unfold repStartsD
  have := clusterTools_ne_nil hne
  simpa using this

theorem repStopsD_ne_nil {members : List Call} (hne : members ≠ []) :
    repStopsD members ≠ [] := by
  unfold repStopsD
  have := clusterTools_ne_nil hne
  simpa using this

/-- Each tool's representative start is at most its representative end,
given valid member intervals. -/
theorem rep_start_le_stop {members : List Call} {t : String}
    (hval : ∀ c ∈ members, c.start ≤ c.stop) :
    medianInt (toolStarts members t) ≤ medianInt (toolStops members t) := by
  refine medianInt_mono ?_
  unfold toolStarts toolStops
  refine forall2_start_stop ?_
  intro c hc
  exact hval c ((List.filter_sublist members).subset hc)

theorem repStopsD_ge_min {members : List Call}
    (hval : ∀ c ∈ members, c.start ≤ c.stop) :
    ∀ v ∈ repStopsD members, minD (repStartsD members) ≤ v := by
  intro v hv
  obtain ⟨t, ht, htv⟩ := List.mem_map.mp hv
  subst htv
  have h1 : medianInt (toolStarts members t) ∈ repStartsD members :=
    List.mem_map_of_mem _ ht
  exact le_trans (minD_le h1) (rep_start_le_stop hval)

theorem repStartsD_le_max {members : List Call}
    (hval : ∀ c ∈ members, c.start ≤ c.stop) :
    ∀ v ∈ repStartsD members, v ≤ maxD (repStopsD members) := by
  intro v hv
  obtain ⟨t, ht, htv⟩ := List.mem_map.mp hv
  subst htv
  have h1 : medianInt (toolStops members t) ∈ repStopsD members :=
    List.mem_map_of_mem _ ht
  exact le_trans (rep_start_le_stop hval) (le_maxD h1)

theorem resolveMulti_start_bounds {tol : ℤ} {contig : String}
    {toolNames : List String} {starts stops : List ℤ} (hne : starts ≠ [])
    {lo hi : ℤ} (hb : ∀ v ∈ starts, lo ≤ v ∧ v ≤ hi) :
    lo ≤ (resolveMulti tol contig toolNames starts stops).consensus_start ∧
      (resolveMulti tol contig toolNames starts stops).consensus_start ≤ hi := by
  unfold resolveMulti
  cases hbg : best_group starts toolNames tol with
  | none =>
    simp only [hbg]
    exact hb (minD starts) (minD_mem hne)
  | some p =>
    obtain ⟨m, used⟩ := p
    simp only [hbg]
    obtain ⟨best, hbmem, _, hm, _⟩ := best_group_some hbg
    have hcomps : best ∈ comps starts tol := (List.mem_filter.mp hbmem).1
    have hlen : 2 ≤ best.length := by
      have := (List.mem_filter.mp hbmem).2
      simpa using this
    have hvne : groupVals starts best ≠ [] := by
      unfold groupVals
      intro hcon
      rw [List.map_eq_nil_iff] at hcon
      subst hcon
      simp at hlen
    have hsubs : ∀ v ∈ groupVals starts best, lo ≤ v ∧ v ≤ hi := by
      intro v hv
      exact hb v (groupVals_subset hcomps v hv)
    obtain ⟨h1, h2⟩ := medianInt_bounds hvne
    have h3 := hsubs _ (minD_mem hvne)
    have h4 := hsubs _ (maxD_mem hvne)
    rw [hm]
    exact ⟨le_trans h3.1 h1, le_trans h2 h4.2⟩

theorem resolveMulti_end_bounds {tol : ℤ} {contig : String}
    {toolNames : List String} {starts stops : List ℤ} (hne : stops ≠ [])
    {lo hi : ℤ} (hb : ∀ v ∈ stops, lo ≤ v ∧ v ≤ hi) :
    lo ≤ (resolveMulti tol contig toolNames starts stops).consensus_end ∧
      (resolveMulti tol contig toolNames starts stops).consensus_end ≤ hi := by
  unfold resolveMulti
  cases hbg : best_group stops toolNames tol with
  | none =>
    simp only [hbg]
    exact hb (maxD stops) (maxD_mem hne)
  | some p =>
    obtain ⟨m, used⟩ := p
    simp only [hbg]
    obtain ⟨best, hbmem, _, hm, _⟩ := best_group_some hbg
    have hcomps : best ∈ comps stops tol := (List.mem_filter.mp hbmem).1
    have hlen : 2 ≤ best.length := by
      have := (List.mem_filter.mp hbmem).2
      simpa using this
    have hvne : groupVals stops best ≠ [] := by
      unfold groupVals
      intro hcon
      rw [List.map_eq_nil_iff] at hcon
      subst hcon
      simp at hlen
    have hsubs : ∀ v ∈ groupVals stops best, lo ≤ v ∧ v ≤ hi := by
      intro v hv
      exact hb v (groupVals_subset hcomps v hv)
    obtain ⟨h1, h2⟩ := medianInt_bounds hvne
    have h3 := hsubs _ (minD_mem hvne)
    have h4 := hsubs _ (maxD_mem hvne)
    rw [hm]
    exact ⟨le_trans h3.1 h1, le_trans h2 h4.2⟩

/-- The consensus start of any resolved cluster lies between the smallest
and the largest member start. -/
theorem resolveCluster_start_bounds {members : List Call} {r : ConsensusRecord}
    {tol : ℤ} {contig : String} (hne : members ≠ [])
    (h : resolveCluster tol contig members = some r) :
    minD (members.map Call.start) ≤ r.consensus_start ∧
      r.consensus_start ≤ maxD (members.map Call.start) := by
  cases hts : clusterTools members with
  | nil => exact absurd hts (clusterTools_ne_nil hne)
  | cons t rest =>
    cases rest with
    | nil =>
      rw [resolveCluster_single_eq hts tol contig] at h
      have hr : r = singleRecord contig t members :=
        (Option.some.injEq _ _ ▸ h).symm
      subst hr
      have ht : t ∈ clusterTools members := by
        rw [hts]; exact List.mem_singleton.mpr rfl
      exact medianInt_sub_bounds (toolStarts_ne_nil ht) toolStarts_subset
    | cons t2 ts =>
      rw [resolveCluster_multi_eq hts tol contig] at h
      have hr : r = resolveMulti tol contig (clusterTools members)
          (repStartsD members) (repStopsD members) :=
        (Option.some.injEq _ _ ▸ h).symm
      subst hr
      exact resolveMulti_start_bounds (repStartsD_ne_nil hne) repStartsD_bounds

/-- The amended §3 invariant: `consensus_start ≤ consensus_end` holds for
single-tool clusters and whenever at least one of the two edges is
resolved by the min/max fallback. -/
theorem resolveCluster_start_le_end {members : List Call} {r : ConsensusRecord}
    {tol : ℤ} {contig : String}
    (hval : ∀ c ∈ members, c.start ≤ c.stop)
    (h : resolveCluster tol contig members = some r)
    (hcond : (clusterTools members).length = 1 ∨
      best_group (repStartsD members) (clusterTools members) tol = none ∨
      best_group (repStopsD members) (clusterTools members) tol = none) :
    r.consensus_start ≤ r.consensus_end := by
  cases hts : clusterTools members with
  | nil =>
    unfold resolveCluster at h
    rw [hts] at h
    cases h
  | cons t rest =>
    cases rest with
    | nil =>
      rw [resolveCluster_single_eq hts tol contig] at h
      have hr : r = singleRecord contig t members :=
        (Option.some.injEq _ _ ▸ h).symm
      subst hr
      exact rep_start_le_stop hval
    | cons t2 ts =>
      have hne : members ≠ [] := by
        intro hcon
        subst hcon
        have : clusterTools ([] : List Call) = [] := rfl
        rw [this] at hts
        cases hts
      rw [resolveCluster_multi_eq hts tol contig] at h
      have hr : r = resolveMulti tol contig (clusterTools members)
          (repStartsD members) (repStopsD members) :=
        (Option.some.injEq _ _ ▸ h).symm
      subst hr
      have hfall : best_group (repStartsD members) (clusterTools members) tol = none ∨
          best_group (repStopsD members) (clusterTools members) tol = none := by
        rcases hcond with h1 | h1 | h1
        · rw [hts] at h1
          simp at h1
        · exact Or.inl h1
        · exact Or.inr h1
      have hneS := repStartsD_ne_nil hne
      have hneE := repStopsD_ne_nil hne
      rcases hfall with hbs | hbe
      · have h1 : (resolveMulti tol contig (clusterTools members)
            (repStartsD members) (repStopsD members)).consensus_start
            = minD (repStartsD members) := by
          unfold resolveMulti
          simp only [hbs]
        rw [h1]
        have hb2 : ∀ v ∈ repStopsD members,
            minD (repStartsD members) ≤ v ∧ v ≤ maxD (repStopsD members) := by
          intro v hv
          exact ⟨repStopsD_ge_min hval v hv, le_maxD hv⟩
        exact (resolveMulti_end_bounds hneE hb2).1
      · have h1 : (resolveMulti tol contig (clusterTools members)
            (repStartsD members) (repStopsD members)).consensus_end
            = maxD (repStopsD members) := by
          unfold resolveMulti
          simp only [hbe]
        rw [h1]
        have hb2 : ∀ v ∈ repStartsD members,
            minD (repStartsD members) ≤ v ∧ v ≤ maxD (repStopsD members) := by
          intro v hv
          exact ⟨minD_le hv, repStartsD_le_max hval v hv⟩
        exact (resolveMulti_start_bounds hneS hb2).2

/-! ### From clusters to the sorted consensus table and the mapping -/

theorem optList_isSome {α : Type} {l : List (Option α)}
    (h : ∀ o ∈ l, o.isSome = true) : ∃ v, optList l = some v := by
  induction l with
  | nil => exact ⟨[], rfl⟩
  | cons o rest ih =>
    obtain ⟨v, hv⟩ := ih (fun x hx => h x (List.mem_cons_of_mem o hx))
    have ho := h o (List.mem_cons_self o rest)
    obtain ⟨a, ha⟩ := Option.isSome_iff_exists.mp ho
    refine ⟨a :: v, ?_⟩
    simp [optList, ha, hv]

/-- On valid input, `consensus_edgewise` produces exactly one record per
cluster, the `i`-th record resolved from the `i`-th cluster: the final
sort by `consensus_start` leaves the cluster order unchanged, because the
clusters are separated by more than `max_dist` and each consensus start
stays inside its cluster's start range. -/
theorem consensus_edgewise_eq (th : ℚ) {md : ℤ} (tol : ℤ) (contig : String)
    {calls : List Call} (hmd : 0 ≤ md)
    (hval : ∀ c ∈ calls, c.start ≤ c.stop) :
    ∃ recs : List ConsensusRecord,
      consensus_edgewise tol contig (cluster_by_contig th md calls) = some recs ∧
      recs.length = (cluster_by_contig th md calls).length ∧
      ∀ i, (hi : i < (cluster_by_contig th md calls).length) →
        (hri : i < recs.length) →
        resolveCluster tol contig ((cluster_by_contig th md calls)[i].2)
          = some recs[i] := by
  have hsome : ∀ o ∈ (cluster_by_contig th md calls).map
      (fun p => resolveCluster tol contig p.2), o.isSome = true := by
    intro o ho
    obtain ⟨p, hp, hpe⟩ := List.mem_map.mp ho
    rw [← hpe]
    exact resolveCluster_isSome (cluster_ne_nil p hp) tol contig
  obtain ⟨recs, hrecs⟩ := optList_isSome hsome
  obtain ⟨hlen0, hpt⟩ := optList_eq_some hrecs
  rw [List.length_map] at hlen0
  have hpt2 : ∀ i, (hi : i < (cluster_by_contig th md calls).length) →
      (hri : i < recs.length) →
      resolveCluster tol contig ((cluster_by_contig th md calls)[i].2)
        = some recs[i] := by
    intro i hi hri
    have := hpt i (by rw [List.length_map]; exact hi) hri
    rw [List.getElem_map] at this
    exact this
  have hstrict : List.Pairwise (fun a b : ConsensusRecord =>
      a.consensus_start < b.consensus_start) recs := by
    rw [List.pairwise_iff_getElem]
    intro i j hi hj hij
    have hci : i < (cluster_by_contig th md calls).length := by omega
    have hcj : j < (cluster_by_contig th md calls).length := by omega
    have hsep := cluster_sep th hmd hval
    have hsepij := List.pairwise_iff_getElem.mp hsep i j hci hcj hij
    have hpi : (cluster_by_contig th md calls)[i] ∈ cluster_by_contig th md calls :=
      List.getElem_mem hci
    have hpj : (cluster_by_contig th md calls)[j] ∈ cluster_by_contig th md calls :=
      List.getElem_mem hcj
    have hnei := cluster_ne_nil _ hpi
    have hnej := cluster_ne_nil _ hpj
    have hbi := resolveCluster_start_bounds hnei (hpt2 i hci hi)
    have hbj := resolveCluster_start_bounds hnej (hpt2 j hcj hj)
    have hmapi : (cluster_by_contig th md calls)[i].2.map Call.start ≠ [] := by
      simpa using hnei
    have hmapj : (cluster_by_contig th md calls)[j].2.map Call.start ≠ [] := by
      simpa using hnej
    obtain ⟨x, hxm, hxe⟩ := List.mem_map.mp (maxD_mem hmapi)
    obtain ⟨y, hym, hye⟩ := List.mem_map.mp (minD_mem hmapj)
    have hsxy := hsepij x hxm y hym
    have hvx : x.start ≤ x.stop := hval x (cluster_member_mem hpi hxm)
    omega
  have hsorted : List.Sorted recordLE recs :=
    hstrict.imp (fun h => le_of_lt h)
  have hsorteq : List.insertionSort recordLE recs = recs :=
    hsorted.insertionSort_eq
  refine ⟨recs, ?_, hlen0.symm, hpt2⟩
  unfold consensus_edgewise
  rw [hrecs]
  simp [hsorteq]

/-- A cluster's 1-based index recovers its position in the cluster list. -/
theorem cluster_position {th : ℚ} {md : ℤ} {calls : List Call}
    {p : ℕ × List Call} (hp : p ∈ cluster_by_contig th md calls) :
    ∃ i, ∃ hi : i < (cluster_by_contig th md calls).length,
      (cluster_by_contig th md calls)[i] = p ∧ p.1 = i + 1 := by
  obtain ⟨i, hi, hpe⟩ := List.mem_iff_getElem.mp hp
  refine ⟨i, hi, hpe, ?_⟩
  have hrlen : i < (List.range' 1 (cluster_by_contig th md calls).length).length := by
    rw [List.length_range']
    exact hi
  have e1 := congrArg (fun l => l[i]?) (cluster_ids th md calls)
  simp only [List.getElem?_map] at e1
  rw [List.getElem?_eq_getElem hi, List.getElem?_eq_getElem hrlen,
    List.getElem_range' i hrlen] at e1
  simp at e1
  rw [hpe] at e1
  omega

/-- Calls with the same raw identifier (hence, in the pipeline, the same
parsed interval) always land в the same cluster. -/
theorem cluster_same_id {th : ℚ} {md : ℤ} {calls : List Call} (hmd : 0 ≤ md)
    (hval : ∀ c ∈ calls, c.start ≤ c.stop)
    {p q : ℕ × List Call} (hp : p ∈ cluster_by_contig th md calls)
    (hq : q ∈ cluster_by_contig th md calls)
    {x y : Call} (hx : x ∈ p.2) (hy : y ∈ q.2)
    (hstart : x.start = y.start) (hstop : x.stop = y.stop) : p = q := by
  by_contra hne
  have hsep := cluster_sep th hmd hval
  have hsym : List.Pairwise
      (fun a b => sepRel md a b ∨ sepRel md b a)
      (cluster_by_contig th md calls) := hsep.imp (fun h => Or.inl h)
  have hR := hsym.forall (fun a b h => h.symm) hp hq hne
  have hvx : x.start ≤ x.stop := hval x (cluster_member_mem hp hx)
  rcases hR with h | h
  · have := h x hx y hy
    omega
  · have := h y hy x hx
    omega

/-- Membership in `create_mapping`: a binding comes from a cluster whose
index points at an existing consensus row, and maps a member's raw id to
that row's consensus id. -/
theorem create_mapping_mem {consensus : List ConsensusRecord}
    {clusters : List (ℕ × List Call)} {k v : String} :
    (k, v) ∈ create_mapping consensus clusters ↔
      ∃ p ∈ clusters, ∃ r, consensus[p.1 - 1]? = some r ∧
        ∃ c ∈ p.2, c.id_raw = k ∧ r.consensus_id = v := by
  unfold create_mapping
  rw [List.mem_flatMap]
  constructor
  · rintro ⟨p, hp, hmem⟩
    cases hidx : consensus[p.1 - 1]? with
    | none =>
      rw [hidx] at hmem
      cases hmem
    | some r =>
      rw [hidx] at hmem
      obtain ⟨c, hc, hce⟩ := List.mem_map.mp hmem
      have h1 : c.id_raw = k := congrArg Prod.fst hce
      have h2 : r.consensus_id = v := congrArg Prod.snd hce
      exact ⟨p, hp, r, hidx, c, hc, h1, h2⟩
  · rintro ⟨p, hp, r, hidx, c, hc, h1, h2⟩
    refine ⟨p, hp, ?_⟩
    rw [hidx]
    have : (k, v) = (c.id_raw, r.consensus_id) := by
      rw [h1, h2]
    rw [this]
    exact List.mem_map_of_mem _ hc

/-- Disjoint intervals have reciprocal overlap 0. -/
theorem recipOverlap_eq_zero {a b : Call}
    (h : min a.stop b.stop < max a.start b.start) : recipOverlap a b = 0 := by
  unfold recipOverlap
  have h0 : max 0 (min a.stop b.stop - max a.start b.start) = 0 :=
    max_eq_left (by omega)
  rw [h0, minRecip_zero]

/-- `clusterTools` is already sorted, so sorting it again is the
identity. -/
theorem sortStrings_clusterTools (members : List Call) :
    sortStrings (clusterTools members) = clusterTools members := by
  have hsort : List.Sorted strLe (clusterTools members) :=
    List.sorted_insertionSort strLe (members.map Call.tool).dedup
  exact hsort.insertionSort_eq

/-- Membership in the neighbour list of `best_group`'s adjacency. -/
theorem nbrs_mem (vs : List ℤ) (tol : ℤ) (i j : ℕ) :
    j ∈ nbrs vs tol i ↔
      j < vs.length ∧ j ≠ i ∧ |vs.getD i 0 - vs.getD j 0| ≤ tol := by
  unfold nbrs
  rw [List.mem_filter, List.mem_range]
  constructor
  · rintro ⟨h1, h2⟩
    rw [Bool.and_eq_true, decide_eq_true_iff, decide_eq_true_iff] at h2
    exact ⟨h1, h2.1, h2.2⟩
  · rintro ⟨h1, h2, h3⟩
    refine ⟨h1, ?_⟩
    rw [Bool.and_eq_true, decide_eq_true_iff, decide_eq_true_iff]
    exact ⟨h2, h3⟩

/-- `consensus_edgewise` succeeds on any list of nonempty clusters. -/
theorem consensus_edgewise_isSome (tol : ℤ) (contig : String)
    {clusters : List (ℕ × List Call)} (hne : ∀ p ∈ clusters, p.2 ≠ []) :
    (consensus_edgewise tol contig clusters).isSome = true := by
  have hsome : ∀ o ∈ clusters.map (fun p => resolveCluster tol contig p.2),
      o.isSome = true := by
    intro o ho
    obtain ⟨p, hp, hpe⟩ := List.mem_map.mp ho
    rw [← hpe]
    exact resolveCluster_isSome (hne p hp) tol contig
  obtain ⟨recs, hrecs⟩ := optList_isSome hsome
  unfold consensus_edgewise
  rw [hrecs]
  rfl

/-- Fields of the multi-tool record when the start edge falls back. -/
theorem resolveMulti_none_start {tol : ℤ} {contig : String}
    {toolNames : List String} {starts stops : List ℤ}
    (hbs : best_group starts toolNames tol = none) :
    (resolveMulti tol contig toolNames starts stops).consensus_start
        = minD starts ∧
    (resolveMulti tol contig toolNames starts stops).used_tools_start
        = sortStrings toolNames ∧
    ∃ ep, (resolveMulti tol contig toolNames starts stops).method
        = "start_min+" ++ ep := by
  refine ⟨?_, ?_, ?_⟩
  · unfold resolveMulti
    simp only [hbs]
  · unfold resolveMulti
    simp only [hbs]
  · rcases hbe : best_group stops toolNames tol with _ | p
    · refine ⟨"end_max", ?_⟩
      unfold resolveMulti
      simp only [hbs, hbe]
      decide
    · obtain ⟨m, used⟩ := p
      refine ⟨"end_consensus_" ++ toString used.length, ?_⟩
      unfold resolveMulti
      simp only [hbs, hbe]
      rw [show ("start_min" ++ "+" : String) = "start_min+" by decide]

/-- Fields of the multi-tool record when the end edge falls back. -/
theorem resolveMulti_none_end {tol : ℤ} {contig : String}
    {toolNames : List String} {starts stops : List ℤ}
    (hbe : best_group stops toolNames tol = none) :
    (resolveMulti tol contig toolNames starts stops).consensus_end
        = maxD stops ∧
    (resolveMulti tol contig toolNames starts stops).used_tools_end
        = sortStrings toolNames ∧
    ∃ sp, (resolveMulti tol contig toolNames starts stops).method
        = sp ++ "+end_max" := by
  refine ⟨?_, ?_, ?_⟩
  · unfold resolveMulti
    simp only [hbe]
  · unfold resolveMulti
    simp only [hbe]
  · rcases hbs : best_group starts toolNames tol with _ | p
    · refine ⟨"start_min", ?_⟩
      unfold resolveMulti
      simp only [hbs, hbe]
      decide
    · obtain ⟨m, used⟩ := p
      refine ⟨"start_consensus_" ++ toString used.length, ?_⟩
      unfold resolveMulti
      simp only [hbs, hbe]
      rw [String.append_assoc]
      rw [show ("+" ++ "end_max" : String) = "+end_max" by decide]

/-! ### The claims -/

/-- C10: in `cluster_by_contig`, for every nonnegative `max_dist`, any
call whose interval has nonempty intersection with the current cluster
envelope is merged into the current cluster regardless of the value of
`overlap_thresh`, because the gap is defined as 0 whenever the
intersection is positive and `0 ≤ max_dist` always satisfies the merge
condition. -/
theorem claim_C10 (th : ℚ) (md : ℤ) (hmd : 0 ≤ md) (cs ce s e : ℤ)
    (hinter : 0 < min e ce - max s cs) :
    mergeStep th md cs ce s e = true :=
  mergeStep_of_inter_pos th hmd hinter

theorem claim_C10_witness :
    (0 : ℤ) ≤ 0 ∧ 0 < min (20 : ℤ) 10 - max 5 0 ∧
      mergeStep 7 0 0 10 5 20 = true :=
  ⟨by decide, by decide, claim_C10 7 0 (by decide) 0 10 5 20 (by decide)⟩

/-- C3: for every contig with N calls, the clusters produced by
`cluster_by_contig` partition those N calls: every call is assigned to
exactly one cluster (the flattened members are a permutation of the
input), and every cluster has at least one member. -/
theorem claim_C3 (th : ℚ) (md : ℤ) (calls : List Call) :
    (((cluster_by_contig th md calls).map Prod.snd).flatten).Perm calls ∧
    ∀ p ∈ cluster_by_contig th md calls, p.2 ≠ [] :=
  ⟨cluster_flatten_perm th md calls, cluster_ne_nil⟩

/-- C9: the composed per-contig core pipeline (clustering, consensus,
identifier mapping) is a total deterministic function: on every
well-typed call list it produces output (`isSome`), and the empty call
list yields zero clusters, zero consensus records and an empty mapping,
as a no-op rather than an error. -/
theorem claim_C9 :
    (∀ (contig : String) (calls : List Call),
      (pipelineContig contig calls).isSome = true) ∧
    (∀ contig : String, pipelineContig contig [] = some ([], [], [])) := by
  constructor
  · intro contig calls
    have h := consensus_edgewise_isSome defaultTol contig
      (@cluster_ne_nil defaultThresh defaultMaxDist calls)
    obtain ⟨recs, hrecs⟩ := Option.isSome_iff_exists.mp h
    unfold pipelineContig
    show (do
      let consensus ← consensus_edgewise defaultTol contig
        (cluster_by_contig defaultThresh defaultMaxDist calls)
      pure (cluster_by_contig defaultThresh defaultMaxDist calls, consensus,
        create_mapping consensus
          (cluster_by_contig defaultThresh defaultMaxDist calls))
      : Option (List (ℕ × List Call) × List ConsensusRecord ×
          List (String × String))).isSome = true
    rw [hrecs]
    rfl
  · intro contig
    rfl

/-- C7: a cluster whose members all come from one tool resolves to a
record whose `consensus_start`/`consensus_end` are that tool's
representative (median) start and end verbatim, with
`method = "single_tool"` and both used-tool sets equal to that single
tool. -/
theorem claim_C7 (tol : ℤ) (contig : String) (members : List Call)
    (t : String) (hne : members ≠ []) (hall : ∀ c ∈ members, c.tool = t) :
    resolveCluster tol contig members = some
      { consensus_id := mkId contig (medianInt (members.map Call.start))
          (medianInt (members.map Call.stop))
        contig := contig
        n_tools := 1
        tools := [t]
        consensus_start := medianInt (members.map Call.start)
        consensus_end := medianInt (members.map Call.stop)
        method := "single_tool"
        used_tools_start := [t]
        used_tools_end := [t] } := by
  have hts := clusterTools_single hne hall
  rw [resolveCluster_single_eq hts tol contig]
  unfold singleRecord
  have h1 : toolStarts members t = members.map Call.start := by
    unfold toolStarts
    rw [filter_tool_all hall]
  have h2 : toolStops members t = members.map Call.stop := by
    unfold toolStops
    rw [filter_tool_all hall]
  rw [h1, h2]

theorem claim_C7_witness :
    (([⟨"A", 5, 10, "r1"⟩, ⟨"A", 7, 20, "r2"⟩] : List Call) ≠ []) ∧
    (∀ c ∈ ([⟨"A", 5, 10, "r1"⟩, ⟨"A", 7, 20, "r2"⟩] : List Call),
      c.tool = "A") ∧
    resolveCluster 200 demoContig [⟨"A", 5, 10, "r1"⟩, ⟨"A", 7, 20, "r2"⟩] = some
      { consensus_id := mkId demoContig
          (medianInt (([⟨"A", 5, 10, "r1"⟩, ⟨"A", 7, 20, "r2"⟩] :
            List Call).map Call.start))
          (medianInt (([⟨"A", 5, 10, "r1"⟩, ⟨"A", 7, 20, "r2"⟩] :
            List Call).map Call.stop))
        contig := demoContig
        n_tools := 1
        tools := ["A"]
        consensus_start := medianInt (([⟨"A", 5, 10, "r1"⟩,
          ⟨"A", 7, 20, "r2"⟩] : List Call).map Call.start)
        consensus_end := medianInt (([⟨"A", 5, 10, "r1"⟩,
          ⟨"A", 7, 20, "r2"⟩] : List Call).map Call.stop)
        method := "single_tool"
        used_tools_start := ["A"]
        used_tools_end := ["A"] } :=
  ⟨by decide, by decide,
    claim_C7 200 demoContig [⟨"A", 5, 10, "r1"⟩, ⟨"A", 7, 20, "r2"⟩] "A"
      (by decide) (by decide)⟩

/-- C1 (amended): for every cluster processed by the consensus resolver
whose members have valid intervals, the resulting record satisfies
`consensus_start ≤ consensus_end` when the cluster is single-tool or when
at least one of the two edges is resolved by the min/max fallback; when
both edges are resolved by majority groups over different tool subsets
the invariant can fail (see the counterexample). -/
theorem claim_C1 (tol : ℤ) (contig : String) (members : List Call)
    (hval : ∀ c ∈ members, c.start ≤ c.stop) (r : ConsensusRecord)
    (h : resolveCluster tol contig members = some r)
    (hcond : (clusterTools members).length = 1 ∨
      best_group (repStartsD members) (clusterTools members) tol = none ∨
      best_group (repStopsD members) (clusterTools members) tol = none) :
    r.consensus_start ≤ r.consensus_end :=
  resolveCluster_start_le_end hval h hcond

theorem claim_C1_counterexample :
    (consensus_edgewise defaultTol demoContig
        (cluster_by_contig defaultThresh defaultMaxDist
          [⟨"A", 400, 600, "a1"⟩, ⟨"B", 250, 300, "b1"⟩,
            ⟨"C", 0, 100, "c1"⟩])).map
      (fun recs => recs.map (fun r => (r.consensus_start, r.consensus_end)))
      = some [(325, 200)] ∧ ¬ (325 : ℤ) ≤ (200 : ℤ) :=
  ⟨by decide, by decide⟩

theorem claim_C1_witness :
    (∀ c ∈ ([⟨"A", 100, 110, "wa"⟩, ⟨"B", 500, 510, "wb"⟩,
        ⟨"C", 900, 910, "wc"⟩] : List Call), c.start ≤ c.stop) ∧
    ((clusterTools [⟨"A", 100, 110, "wa"⟩, ⟨"B", 500, 510, "wb"⟩,
        ⟨"C", 900, 910, "wc"⟩]).length = 1 ∨
      best_group (repStartsD [⟨"A", 100, 110, "wa"⟩, ⟨"B", 500, 510, "wb"⟩,
        ⟨"C", 900, 910, "wc"⟩])
        (clusterTools [⟨"A", 100, 110, "wa"⟩, ⟨"B", 500, 510, "wb"⟩,
          ⟨"C", 900, 910, "wc"⟩]) 200 = none ∨
      best_group (repStopsD [⟨"A", 100, 110, "wa"⟩, ⟨"B", 500, 510, "wb"⟩,
        ⟨"C", 900, 910, "wc"⟩])
        (clusterTools [⟨"A", 100, 110, "wa"⟩, ⟨"B", 500, 510, "wb"⟩,
          ⟨"C", 900, 910, "wc"⟩]) 200 = none) ∧
    ∀ r, resolveCluster 200 demoContig [⟨"A", 100, 110, "wa"⟩,
        ⟨"B", 500, 510, "wb"⟩, ⟨"C", 900, 910, "wc"⟩] = some r →
      r.consensus_start ≤ r.consensus_end :=
  ⟨by decide, by decide,
    fun r h => claim_C1 200 demoContig
      [⟨"A", 100, 110, "wa"⟩, ⟨"B", 500, 510, "wb"⟩, ⟨"C", 900, 910, "wc"⟩]
      (by decide) r h (by decide)⟩

/-- C5: within a contig, the clusters emitted by `cluster_by_contig`
appear in non-decreasing order of their minimum member start, and the
1-based cluster indices increase in emission order. -/
theorem claim_C5 (th : ℚ) (md : ℤ) (hmd : 0 ≤ md) (calls : List Call)
    (hval : ∀ c ∈ calls, c.start ≤ c.stop) :
    List.Chain' (fun p q : ℕ × List Call =>
      minD (p.2.map Call.start) ≤ minD (q.2.map Call.start))
      (cluster_by_contig th md calls) ∧
    (cluster_by_contig th md calls).map Prod.fst
      = List.range' 1 (cluster_by_contig th md calls).length := by
  refine ⟨?_, cluster_ids th md calls⟩
  have hpw : List.Pairwise (fun p q : ℕ × List Call =>
      minD (p.2.map Call.start) ≤ minD (q.2.map Call.start))
      (cluster_by_contig th md calls) := by
    rw [List.pairwise_iff_getElem]
    intro i j hi hj hij
    have hsep := cluster_sep th hmd hval
    have hsepij := List.pairwise_iff_getElem.mp hsep i j hi hj hij
    have hpi : (cluster_by_contig th md calls)[i] ∈ cluster_by_contig th md calls :=
      List.getElem_mem hi
    have hpj : (cluster_by_contig th md calls)[j] ∈ cluster_by_contig th md calls :=
      List.getElem_mem hj
    have hmapi : (cluster_by_contig th md calls)[i].2.map Call.start ≠ [] := by
      simpa using cluster_ne_nil _ hpi
    have hmapj : (cluster_by_contig th md calls)[j].2.map Call.start ≠ [] := by
      simpa using cluster_ne_nil _ hpj
    obtain ⟨x, hxm, hxe⟩ := List.mem_map.mp (minD_mem hmapi)
    obtain ⟨y, hym, hye⟩ := List.mem_map.mp (minD_mem hmapj)
    have hsxy := hsepij x hxm y hym
    have hvx : x.start ≤ x.stop := hval x (cluster_member_mem hpi hxm)
    omega
  exact hpw.chain'

theorem claim_C5_witness :
    (0 : ℤ) ≤ defaultMaxDist ∧
    (∀ c ∈ ([⟨"A", 0, 100, "w1"⟩, ⟨"B", 5000, 5100, "w2"⟩] : List Call),
      c.start ≤ c.stop) ∧
    (List.Chain' (fun p q : ℕ × List Call =>
      minD (p.2.map Call.start) ≤ minD (q.2.map Call.start))
      (cluster_by_contig defaultThresh defaultMaxDist
        [⟨"A", 0, 100, "w1"⟩, ⟨"B", 5000, 5100, "w2"⟩]) ∧
    (cluster_by_contig defaultThresh defaultMaxDist
        [⟨"A", 0, 100, "w1"⟩, ⟨"B", 5000, 5100, "w2"⟩]).map Prod.fst
      = List.range' 1 (cluster_by_contig defaultThresh defaultMaxDist
          [⟨"A", 0, 100, "w1"⟩, ⟨"B", 5000, 5100, "w2"⟩]).length) :=
  ⟨by decide, by decide,
    claim_C5 defaultThresh defaultMaxDist (by decide)
      [⟨"A", 0, 100, "w1"⟩, ⟨"B", 5000, 5100, "w2"⟩] (by decide)⟩

/-- C6: for every cluster with at least two distinct tools on which
`best_group` finds no majority group for the start values, the resolver
never raises and produces `consensus_start` equal to the minimum of all
representative starts, `used_tools_start` equal to all tools, and a
method starting with the fragment `start_min`; symmetrically the end
falls back to the maximum with fragment `end_max`. -/
theorem claim_C6 (tol : ℤ) (contig : String) (members : List Call)
    (t1 t2 : String) (ts : List String)
    (hts : clusterTools members = t1 :: t2 :: ts) :
    (resolveCluster tol contig members).isSome = true ∧
    ∀ r, resolveCluster tol contig members = some r →
      (best_group (repStartsD members) (clusterTools members) tol = none →
        r.consensus_start = minD (repStartsD members) ∧
        r.used_tools_start = clusterTools members ∧
        ∃ ep, r.method = "start_min+" ++ ep) ∧
      (best_group (repStopsD members) (clusterTools members) tol = none →
        r.consensus_end = maxD (repStopsD members) ∧
        r.used_tools_end = clusterTools members ∧
        ∃ sp, r.method = sp ++ "+end_max") := by
  have hne : members ≠ [] := by
    intro hcon
    subst hcon
    rw [show clusterTools ([] : List Call) = [] from rfl] at hts
    cases hts
  refine ⟨resolveCluster_isSome hne tol contig, ?_⟩
  intro r h
  rw [resolveCluster_multi_eq hts tol contig] at h
  have hr : r = resolveMulti tol contig (clusterTools members)
      (repStartsD members) (repStopsD members) :=
    (Option.some.injEq _ _ ▸ h).symm
  subst hr
  constructor
  · intro hbs
    obtain ⟨h1, h2, h3⟩ := resolveMulti_none_start hbs
    exact ⟨h1, by rw [h2]; exact sortStrings_clusterTools members, h3⟩
  · intro hbe
    obtain ⟨h1, h2, h3⟩ := resolveMulti_none_end hbe
    exact ⟨h1, by rw [h2]; exact sortStrings_clusterTools members, h3⟩

theorem claim_C6_witness :
    clusterTools [⟨"A", 100, 110, "fa"⟩, ⟨"B", 500, 510, "fb"⟩,
        ⟨"C", 900, 910, "fc"⟩] = "A" :: "B" :: ["C"] ∧
    best_group (repStartsD [⟨"A", 100, 110, "fa"⟩, ⟨"B", 500, 510, "fb"⟩,
        ⟨"C", 900, 910, "fc"⟩])
      (clusterTools [⟨"A", 100, 110, "fa"⟩, ⟨"B", 500, 510, "fb"⟩,
        ⟨"C", 900, 910, "fc"⟩]) 200 = none ∧
    minD (repStartsD [⟨"A", 100, 110, "fa"⟩, ⟨"B", 500, 510, "fb"⟩,
        ⟨"C", 900, 910, "fc"⟩]) = 100 ∧
    ∀ r, resolveCluster 200 demoContig [⟨"A", 100, 110, "fa"⟩,
        ⟨"B", 500, 510, "fb"⟩, ⟨"C", 900, 910, "fc"⟩] = some r →
      best_group (repStartsD [⟨"A", 100, 110, "fa"⟩, ⟨"B", 500, 510, "fb"⟩,
          ⟨"C", 900, 910, "fc"⟩])
        (clusterTools [⟨"A", 100, 110, "fa"⟩, ⟨"B", 500, 510, "fb"⟩,
          ⟨"C", 900, 910, "fc"⟩]) 200 = none →
        r.consensus_start = minD (repStartsD [⟨"A", 100, 110, "fa"⟩,
          ⟨"B", 500, 510, "fb"⟩, ⟨"C", 900, 910, "fc"⟩]) ∧
        r.used_tools_start = clusterTools [⟨"A", 100, 110, "fa"⟩,
          ⟨"B", 500, 510, "fb"⟩, ⟨"C", 900, 910, "fc"⟩] ∧
        ∃ ep, r.method = "start_min+" ++ ep :=
  ⟨by decide, by decide, by decide,
    fun r h => ((claim_C6 200 demoContig
      [⟨"A", 100, 110, "fa"⟩, ⟨"B", 500, 510, "fb"⟩, ⟨"C", 900, 910, "fc"⟩]
      "A" "B" ["C"] (by decide)).2 r h).1⟩

/-- C2 (amended): `best_group` builds the adjacency `|vi - vj| ≤ tol`,
discards singleton components, and returns a component that maximizes
size and, on ties, minimizes the value range, together with the integer
median of its values — computed by truncation toward zero, which is the
floor exactly on nonnegative values — and the tools that contributed
them; it signals no-group iff every component has size 1; on starts
`[100, 105, 900]` from tools `[A, B, C]` with `tol = 200` it returns
median 102 and tools `[A, B]`. -/
theorem claim_C2 (vs : List ℤ) (tools : List String) (tol : ℤ)
    (_hlen : 2 ≤ vs.length) :
    (best_group vs tools tol = none ↔ ∀ c ∈ comps vs tol, c.length = 1) ∧
    (∀ i j : ℕ, j ∈ nbrs vs tol i ↔
      j < vs.length ∧ j ≠ i ∧ |vs.getD i 0 - vs.getD j 0| ≤ tol) ∧
    (∀ m used, best_group vs tools tol = some (m, used) →
      ∃ best ∈ (comps vs tol).filter (fun c => decide (2 ≤ c.length)),
        (∀ g ∈ (comps vs tol).filter (fun c => decide (2 ≤ c.length)),
          g.length ≤ best.length ∧
            (g.length = best.length →
              groupWidth vs best ≤ groupWidth vs g)) ∧
        m = medianInt (groupVals vs best) ∧
        used = best.map (fun k => tools.getD k noTool)) ∧
    best_group [100, 105, 900] ["A", "B", "C"] 200 = some (102, ["A", "B"]) := by
  refine ⟨best_group_none_iff vs tools tol, fun i j => nbrs_mem vs tol i j,
    ?_, by decide⟩
  intro m used h
  obtain ⟨best, hmem, hopt, hm, hused⟩ := best_group_some h
  refine ⟨best, hmem, ?_, hm, hused⟩
  intro g hg
  have hng := hopt g hg
  unfold keyLt at hng
  omega

theorem claim_C2_counterexample :
    best_group [-1, -2] ["A", "B"] 5 = some (-1, ["A", "B"]) ∧
    floorAvgSpec (-2) (-1) = -2 ∧ ((-1 : ℤ) ≠ -2) :=
  ⟨by decide, by decide, by decide⟩

theorem claim_C2_witness :
    2 ≤ ([100, 105, 900] : List ℤ).length ∧
    best_group [100, 105, 900] ["A", "B", "C"] 200 = some (102, ["A", "B"]) :=
  ⟨by decide,
    (claim_C2 [100, 105, 900] ["A", "B", "C"] 200 (by decide)).2.2.2⟩

/-- C4 (amended): under the default parameters, two calls on the same
contig with reciprocal overlap at least 0.5 always end in the same
cluster; and a call `y` ends in a different cluster from an
earlier-starting call `x` whenever every call starting before `y` ends
more than `max_dist` before `y` starts — the amendment quantifies over
all earlier-starting calls, not only the sweep-intermediate ones, since
an earlier call with a long interval can bridge the pair (see the
counterexample). -/
theorem claim_C4 (calls : List Call) (hval : ∀ c ∈ calls, c.start ≤ c.stop) :
    (∀ p ∈ cluster_by_contig defaultThresh defaultMaxDist calls,
      ∀ q ∈ cluster_by_contig defaultThresh defaultMaxDist calls,
      ∀ x ∈ p.2, ∀ y ∈ q.2,
        defaultThresh ≤ recipOverlap x y → p = q) ∧
    (∀ p ∈ cluster_by_contig defaultThresh defaultMaxDist calls,
      ∀ q ∈ cluster_by_contig defaultThresh defaultMaxDist calls,
      ∀ x ∈ p.2, ∀ y ∈ q.2, x.start < y.start →
        (∀ z ∈ calls, z.start < y.start →
          z.stop + defaultMaxDist < y.start) → p ≠ q) := by
  have hmd : (0 : ℤ) ≤ defaultMaxDist := by decide
  constructor
  · intro p hp q hq x hx y hy hrec
    by_contra hne
    have hsep := cluster_sep defaultThresh hmd hval
    have hsym : List.Pairwise
        (fun a b => sepRel defaultMaxDist a b ∨ sepRel defaultMaxDist b a)
        (cluster_by_contig defaultThresh defaultMaxDist calls) :=
      hsep.imp (fun h => Or.inl h)
    have hR := hsym.forall (fun a b h => h.symm) hp hq hne
    have hz : recipOverlap x y = 0 := by
      rcases hR with h | h
      · have hxy := h x hx y hy
        refine recipOverlap_eq_zero ?_
        have h1 : min x.stop y.stop ≤ x.stop := min_le_left _ _
        have h2 : y.start ≤ max x.start y.start := le_max_right _ _
        omega
      · have hyx := h y hy x hx
        refine recipOverlap_eq_zero ?_
        have h1 : min x.stop y.stop ≤ y.stop := min_le_right _ _
        have h2 : x.start ≤ max x.start y.start := le_max_left _ _
        omega
    rw [hz] at hrec
    have hpos : ¬ defaultThresh ≤ (0 : ℚ) := by decide
    exact hpos hrec
  · intro p hp q hq x hx y hy hxy hfar hpq
    subst hpq
    have hchain := cluster_chain hmd (show (0 : ℚ) < defaultThresh by decide) p hp
    have hsorted := cluster_mem_sorted p hp
    have hdesc : List.Pairwise (fun a b => b.start ≤ a.start) p.2.reverse := by
      rw [List.pairwise_reverse]
      exact hsorted
    refine chainRev_no_far p.2.reverse hchain hdesc x ?_ y ?_ hxy ?_
    · rw [List.mem_reverse]
      exact hx
    · rw [List.mem_reverse]
      exact hy
    · intro z hz hzs
      rw [List.mem_reverse] at hz
      exact hfar z (cluster_member_mem hp hz) hzs

theorem claim_C4_counterexample :
    recipOverlap ⟨"T2", 10, 20, "X"⟩ ⟨"T3", 3000, 3100, "Y"⟩ = 0 ∧
    (⟨"T3", 3000, 3100, "Y"⟩ : Call).start
        - (⟨"T2", 10, 20, "X"⟩ : Call).stop > defaultMaxDist ∧
    sortCalls [⟨"T1", 0, 5000, "B"⟩, ⟨"T2", 10, 20, "X"⟩,
        ⟨"T3", 3000, 3100, "Y"⟩]
      = [⟨"T1", 0, 5000, "B"⟩, ⟨"T2", 10, 20, "X"⟩,
        ⟨"T3", 3000, 3100, "Y"⟩] ∧
    cluster_by_contig defaultThresh defaultMaxDist
        [⟨"T1", 0, 5000, "B"⟩, ⟨"T2", 10, 20, "X"⟩, ⟨"T3", 3000, 3100, "Y"⟩]
      = [(1, [⟨"T1", 0, 5000, "B"⟩, ⟨"T2", 10, 20, "X"⟩,
        ⟨"T3", 3000, 3100, "Y"⟩])] :=
  ⟨by decide, by decide, by decide, by decide⟩

theorem claim_C4_witness :
    (∀ c ∈ ([⟨"A", 0, 100, "u"⟩, ⟨"B", 5000, 5100, "v"⟩] : List Call),
      c.start ≤ c.stop) ∧
    ((∀ p ∈ cluster_by_contig defaultThresh defaultMaxDist
        [⟨"A", 0, 100, "u"⟩, ⟨"B", 5000, 5100, "v"⟩],
      ∀ q ∈ cluster_by_contig defaultThresh defaultMaxDist
        [⟨"A", 0, 100, "u"⟩, ⟨"B", 5000, 5100, "v"⟩],
      ∀ x ∈ p.2, ∀ y ∈ q.2,
        defaultThresh ≤ recipOverlap x y → p = q) ∧
    (∀ p ∈ cluster_by_contig defaultThresh defaultMaxDist
        [⟨"A", 0, 100, "u"⟩, ⟨"B", 5000, 5100, "v"⟩],
      ∀ q ∈ cluster_by_contig defaultThresh defaultMaxDist
        [⟨"A", 0, 100, "u"⟩, ⟨"B", 5000, 5100, "v"⟩],
      ∀ x ∈ p.2, ∀ y ∈ q.2, x.start < y.start →
        (∀ z ∈ ([⟨"A", 0, 100, "u"⟩, ⟨"B", 5000, 5100, "v"⟩] : List Call),
          z.start < y.start → z.stop + defaultMaxDist < y.start) → p ≠ q)) :=
  ⟨by decide,
    claim_C4 [⟨"A", 0, 100, "u"⟩, ⟨"B", 5000, 5100, "v"⟩] (by decide)⟩

/-- C8: for every input call set whose raw identifiers determine their
intervals, every member call's `raw_id` is mapped by `create_mapping` to
the `consensus_id` of its own cluster's record — the record at position
`cluster_idx - 1` of the consensus table sorted by `consensus_start` —
and that `consensus_id` is exactly
`"{contig}_prophage_{consensus_start}_{consensus_end}"` rebuilt from the
record's own fields. -/
theorem claim_C8 (contig : String) (calls : List Call)
    (hval : ∀ c ∈ calls, c.start ≤ c.stop)
    (hid : ∀ c1 ∈ calls, ∀ c2 ∈ calls, c1.id_raw = c2.id_raw →
      c1.start = c2.start ∧ c1.stop = c2.stop) :
    ∀ out, pipelineContig contig calls = some out →
    ∀ p ∈ out.1, ∀ c ∈ p.2,
      ∃ r, out.2.1[p.1 - 1]? = some r ∧
        dictLookup out.2.2 c.id_raw = some r.consensus_id ∧
        r.consensus_id = mkId contig r.consensus_start r.consensus_end := by
  have hmd : (0 : ℤ) ≤ defaultMaxDist := by decide
  obtain ⟨recs, hre, hlen, hpt⟩ :=
    consensus_edgewise_eq defaultThresh defaultTol contig hmd hval
  intro out hout
  have hpipe : pipelineContig contig calls
      = some (cluster_by_contig defaultThresh defaultMaxDist calls, recs,
          create_mapping recs
            (cluster_by_contig defaultThresh defaultMaxDist calls)) := by
    unfold pipelineContig
    show (do
      let consensus ← consensus_edgewise defaultTol contig
        (cluster_by_contig defaultThresh defaultMaxDist calls)
      pure (cluster_by_contig defaultThresh defaultMaxDist calls, consensus,
        create_mapping consensus
          (cluster_by_contig defaultThresh defaultMaxDist calls))
      : Option (List (ℕ × List Call) × List ConsensusRecord ×
          List (String × String))) = _
    rw [hre]
    rfl
  rw [hout] at hpipe
  have hout2 : out = (cluster_by_contig defaultThresh defaultMaxDist calls,
      recs, create_mapping recs
        (cluster_by_contig defaultThresh defaultMaxDist calls)) :=
    Option.some.injEq _ _ ▸ hpipe
  subst hout2
  intro p hp c hc
  obtain ⟨i, hi, hpe, hpidx⟩ := cluster_position hp
  have hri : i < recs.length := by omega
  have hidx : p.1 - 1 = i := by omega
  have hres := hpt i hi hri
  rw [hpe] at hres
  refine ⟨recs[i], ?_, ?_, (resolveCluster_id_format hres).2⟩
  · rw [hidx]
    exact List.getElem?_eq_getElem hri
  · refine dictLookup_eq_some ?_ ?_
    · refine ⟨(c.id_raw, recs[i].consensus_id), ?_, rfl⟩
      refine create_mapping_mem.mpr ⟨p, hp, recs[i], ?_, c, hc, rfl, rfl⟩
      rw [hidx]
      exact List.getElem?_eq_getElem hri
    · rintro ⟨k, v⟩ hkv hk
      obtain ⟨q, hq, r2, hidx2, c2, hc2, hck, hcv⟩ :=
        create_mapping_mem.mp hkv
      have hcc : c2.id_raw = c.id_raw := by
        rw [hck]
        exact hk
      have hcmem : c ∈ calls := cluster_member_mem hp hc
      have hcmem2 : c2 ∈ calls := cluster_member_mem hq hc2
      obtain ⟨hseq, hpeq⟩ := hid c2 hcmem2 c hcmem hcc
      have hqp : q = p := cluster_same_id hmd hval hq hp hc2 hc hseq hpeq
      subst hqp
      rw [hidx, List.getElem?_eq_getElem hri] at hidx2
      have hr2 : r2 = recs[i] := (Option.some.injEq _ _ ▸ hidx2).symm
      rw [← hcv, hr2]

theorem claim_C8_witness :
    (∀ c ∈ ([⟨"A", 100, 200, "x1"⟩, ⟨"B", 5000, 5100, "y1"⟩] : List Call),
      c.start ≤ c.stop) ∧
    (∀ c1 ∈ ([⟨"A", 100, 200, "x1"⟩, ⟨"B", 5000, 5100, "y1"⟩] : List Call),
      ∀ c2 ∈ ([⟨"A", 100, 200, "x1"⟩, ⟨"B", 5000, 5100, "y1"⟩] : List Call),
      c1.id_raw = c2.id_raw → c1.start = c2.start ∧ c1.stop = c2.stop) ∧
    ∀ out, pipelineContig demoContig
        [⟨"A", 100, 200, "x1"⟩, ⟨"B", 5000, 5100, "y1"⟩] = some out →
      ∀ p ∈ out.1, ∀ c ∈ p.2,
        ∃ r, out.2.1[p.1 - 1]? = some r ∧
          dictLookup out.2.2 c.id_raw = some r.consensus_id ∧
          r.consensus_id = mkId demoContig r.consensus_start r.consensus_end :=
  ⟨by decide, by decide,
    claim_C8 demoContig [⟨"A", 100, 200, "x1"⟩, ⟨"B", 5000, 5100, "y1"⟩]
      (by decide) (by decide)⟩

end Consensus
